import Mathlib

/-!
# Verification of the deep-operation engines (merge / intersect / assign / clone)

This file gives a shallow embedding of the four graph-recursion engines of the
repository — deep merge (merge.js), deep intersect (the intersect engine kept
next to freeze.js), deep assign (assign.js, the descriptor-aware version that
the repository's test-suite exercises: it supports Set/Map sources and reads
properties only through descriptors), and the descriptor-preserving deep clone
engine (the WeakMap-based engine invoked by merge through
`deepclone(output, { preservesImutable: true })`) — and proves or refutes the
frozen claims about them.

Modelling choices, stated once:

* JavaScript object identity is modelled with an explicit heap: composite
  values (plain objects, arrays, Sets, Maps, Dates, RegExps) live at `Nat`
  addresses, and a `Value` is a primitive, a function identity, or a
  reference.  `Object.is` on this `Value` type is plain decidable equality
  (numbers are modelled as `Int`, so the NaN / negative-zero corners of
  `Object.is` versus SameValueZero coincide and do not arise).
* A property descriptor mirrors the duck-typed descriptor objects the code
  passes around: every field is optional, `'value' in d` is `d.value.isSome`,
  and `Object.defineProperty` completes a descriptor exactly the way the JS
  semantics does for a newly defined property.  Stored properties are always
  in completed form, which is what `Object.getOwnPropertyDescriptor` returns.
* Getters are function identities; invoking one returns `fv id` for an
  ambient pure table `fv : Nat → Value` and records `id` in a call log
  (`St.calls`).  This makes "the engine never invokes an accessor" a
  statement about the log, and lets the result of an engine depend on getter
  bodies only where the code really evaluates a property.
* `Object.prototype` is modelled as an opaque chain end with no own
  properties (the repository defines none on it); a record's prototype is
  otherwise `null` or a heap reference, and `key in obj` / `obj[key]` walk
  that chain as in JS.
* Recursion is by explicit fuel: every engine returns `none` when the fuel
  runs out, and every theorem about a run is conditional on the run having
  produced a result.  Object-level extensibility / seal / freeze state is not
  modelled: the engines never freeze anything, and the `preservesImutable`
  post-pass of the clone engine only replicates that state, so on the inputs
  the claims quantify over it is the identity.
-/

/-- Primitive JavaScript values (numbers are modelled as integers). -/
inductive Prim
  | undefp
  | null
  | bool (b : Bool)
  | num (n : Int)
  | strv (s : String)
deriving DecidableEq, Repr

/-- Property keys: strings or symbols (`Reflect.ownKeys` lists both,
`Object.getOwnPropertyNames` only the strings). -/
inductive Key
  | strk (s : String)
  | symk (id : Nat)
deriving DecidableEq, Repr

/-- A JavaScript value: a primitive, a function object (opaque identity;
the engines never call one except where a getter is evaluated), or a
reference to a composite in the heap. -/
inductive Value
  | prim (p : Prim)
  | func (id : Nat)
  | ref (addr : Nat)
deriving DecidableEq, Repr

/-- Shorthand for the value `undefined`. -/
def undefV : Value := .prim .undefp

/-- The prototype slot of a plain object: `null`, the (opaque)
`Object.prototype`, or another heap object. -/
inductive Proto
  | nullp
  | objectProto
  | ref (addr : Nat)
deriving DecidableEq, Repr

/-- A property descriptor as the code manipulates it: a duck-typed record of
optional fields.  `'value' in d` is `d.value.isSome`; an `Option Bool` flag
that is `none` reads as `undefined` in the source.  For the `get`/`set`
slots, `none` models a slot the literal does not mention; a slot that is
present but `undefined` is `some undefV` (both read back as `undefined`). -/
structure Descriptor where
  value : Option Value
  writable : Option Bool
  getf : Option Value
  setf : Option Value
  enumerable : Option Bool
  configurable : Option Bool
deriving DecidableEq, Repr

/-- A data descriptor with all fields present, as
`Object.getOwnPropertyDescriptor` yields for a data property. -/
def Descriptor.mkData (v : Value) (w e c : Bool) : Descriptor :=
  ⟨some v, some w, none, none, some e, some c⟩

/-- An accessor descriptor with all fields present, as
`Object.getOwnPropertyDescriptor` yields for an accessor property. -/
def Descriptor.mkAccessor (g s : Value) (e c : Bool) : Descriptor :=
  ⟨none, none, some g, some s, some e, some c⟩

/-- Composite heap objects.  A record keeps its properties in `ownKeys`
order (insertion order; the exotic integer-key reordering of JS plain
objects is outside every claim).  Sets and Maps keep insertion order. -/
inductive Obj
  | record (proto : Proto) (props : List (Key × Descriptor))
  | arr (elems : List Value)
  | setO (elems : List Value)
  | mapO (entries : List (Value × Value))
  | date (time : Int)
  | regex (src flags : String)
deriving DecidableEq, Repr

/-- The heap: object number `i` lives at index `i`. -/
abbrev Heap := List Obj

/-- Engine state: the heap plus the log of getter invocations (the ids of the
functions that have been called while evaluating a property). -/
structure St where
  heap : Heap
  calls : List Nat
deriving DecidableEq, Repr

/-- Allocation appends at the end of the heap and returns the new address. -/
def allocSt (st : St) (o : Obj) : St × Nat :=
  ({ st with heap := st.heap ++ [o] }, st.heap.length)

/-- Writing an object cell in place. -/
def writeSt (st : St) (p : Nat) (o : Obj) : St :=
  { st with heap := st.heap.set p o }

/-- Looking a key up in a property list (first match, as JS own-property
lookup). -/
def propsLookup (props : List (Key × Descriptor)) (k : Key) : Option Descriptor :=
  match props with
  | [] => none
  | (k', d) :: rest => if k' = k then some d else propsLookup rest k

/-- Does a property list own this key. -/
def propsHas (props : List (Key × Descriptor)) (k : Key) : Bool :=
  (propsLookup props k).isSome

/-- Replacing the descriptor of an existing key in place (keeping its
position), as redefinition of an existing property does in JS. -/
def propsReplace (props : List (Key × Descriptor)) (k : Key) (d : Descriptor) :
    List (Key × Descriptor) :=
  match props with
  | [] => []
  | (k', d') :: rest =>
    if k' = k then (k', d) :: rest else (k', d') :: propsReplace rest k d

/-- Completion of a property descriptor the way `Object.defineProperty`
finishes one for a property being (re)defined from a full or partial
literal: a descriptor mentioning `get` or `set` becomes an accessor property
(missing slot = `undefined`), anything else becomes a data property
(missing value = `undefined`, missing `writable` = `false`), and a missing
or `undefined` flag coerces to `false`.  Every `defineProperty` call in the
engines passes either a complete descriptor or a literal whose absent
fields JS would default exactly like this. -/
def normalizeDescriptor (d : Descriptor) : Descriptor :=
  if d.getf.isSome || d.setf.isSome then
    ⟨none, none, some (d.getf.getD undefV), some (d.setf.getD undefV),
      some (d.enumerable.getD false), some (d.configurable.getD false)⟩
  else
    ⟨some (d.value.getD undefV), some (d.writable.getD false), none, none,
      some (d.enumerable.getD false), some (d.configurable.getD false)⟩

/-- The embedded `Object.getOwnPropertyDescriptor` (records only: the
engines never ask any other object kind for a descriptor). -/
def getOwnPropertyDescriptor (h : Heap) (p : Nat) (k : Key) : Option Descriptor :=
  match h[p]? with
  | some (.record _ props) => propsLookup props k
  | _ => none

/-- The embedded `Object.prototype.hasOwnProperty.call`. -/
def hasOwnProp (h : Heap) (p : Nat) (k : Key) : Bool :=
  (getOwnPropertyDescriptor h p k).isSome

/-- The embedded `Reflect.ownKeys` (string keys then symbols, in stored
order; the engines iterate it as a snapshot). -/
def ownKeys (h : Heap) (p : Nat) : List Key :=
  match h[p]? with
  | some (.record _ props) => props.map (fun kd => kd.1)
  | _ => []

/-- The embedded `Object.getOwnPropertyNames`: only the string keys. -/
def ownNames (h : Heap) (p : Nat) : List Key :=
  (ownKeys h p).filter (fun k => match k with | .strk _ => true | .symk _ => false)

/-- The embedded `Object.defineProperty` on a record at `p`: replaces the
key in place when owned, appends otherwise, always storing the completed
descriptor.  (The engines only define on extensible records and with
shape-consistent descriptors, so the JS validation failures cannot fire on
the calls this file models.) -/
def definePropertySt (st : St) (p : Nat) (k : Key) (d : Descriptor) : St :=
  match st.heap[p]? with
  | some (.record proto props) =>
    if propsHas props k then
      writeSt st p (.record proto (propsReplace props k (normalizeDescriptor d)))
    else
      writeSt st p (.record proto (props ++ [(k, normalizeDescriptor d)]))
  | _ => st

/-- The prototype of a record (`Object.getPrototypeOf`; the engines only ask
records). -/
def protoOf (h : Heap) (p : Nat) : Proto :=
  match h[p]? with
  | some (.record proto _) => proto
  | _ => .objectProto

/-- Truthiness-preserving translation of the JS expression `x ?? y` on two
possibly-absent values, as used for accessor slots: absent or nullish reads
as `undefined` and falls through to the right operand. -/
def jsField (x : Option Value) : Value :=
  x.getD undefV

/-- The JS nullish-coalescing `x ?? y` on two values. -/
def jsOr (x y : Value) : Value :=
  if x = .prim .undefp || x = .prim .null then y else x

/-- The effective boolean of the JS expression `x && y` over two
possibly-absent flags, after `defineProperty` coerces the result: an absent
(`undefined`) flag is falsy, so the completed flag is the conjunction of the
two defaults-to-false reads. -/
def andFlag (x y : Option Bool) : Bool :=
  x.getD false && y.getD false

/-- First-occurrence deduplication, the effect of `[...new Set(list)]`
(`Set` iterates in insertion order and deduplicates by SameValueZero, which
on this `Value` model is plain equality). -/
def dedupFirst (l : List Value) : List Value :=
  go [] l
where
  /-- Walks the list keeping the values not seen before. -/
  go (seen : List Value) : List Value → List Value
    | [] => []
    | v :: rest => if v ∈ seen then go seen rest else v :: go (v :: seen) rest

/-- Membership by SameValueZero, the JS `Array.prototype.includes` /
`Set.prototype.has` test. -/
def svzMem (v : Value) (l : List Value) : Bool :=
  l.contains v

/-- Lookup in a Map entry list by SameValueZero key equality. -/
def mapGetEntry (entries : List (Value × Value)) (k : Value) : Option Value :=
  match entries with
  | [] => none
  | (k', v) :: rest => if k' = k then some v else mapGetEntry rest k

/-- The effect of `map.set(k, v)` on an entry list: replace in place if the
key is present, append otherwise. -/
def mapSetEntry (entries : List (Value × Value)) (k v : Value) : List (Value × Value) :=
  match entries with
  | [] => [(k, v)]
  | (k', v') :: rest =>
    if k' = k then (k', v) :: rest else (k', v') :: mapSetEntry rest k v

/-- The effect of `set.add(v)` on a member list. -/
def setAddMember (elems : List Value) (v : Value) : List Value :=
  if v ∈ elems then elems else elems ++ [v]

/-- The JS `typeof value === 'object'` test (true for `null` and for every
composite reference, false for the other primitives and for functions). -/
def typeofIsObject (v : Value) : Bool :=
  match v with
  | .prim .null => true
  | .ref _ => true
  | _ => false

/-- Evaluation of the property read `obj[key]` on a record, walking the
prototype chain as JS does.  A data property yields its value without any
call; an accessor property invokes its getter: the getter's id is appended
to the call log and the ambient table `fv` supplies the returned value (an
accessor whose `get` slot is `undefined` reads as `undefined` without a
call).  `chain` bounds the prototype walk; callers pass the heap size plus
one, which covers every JS-realizable (acyclic) prototype chain. -/
def getPropChain (fv : Nat → Value) (st : St) (chain : Nat) (p : Nat) (k : Key) :
    St × Value :=
  match chain with
  | 0 => (st, undefV)
  | chain + 1 =>
    match st.heap[p]? with
    | some (.record proto props) =>
      match propsLookup props k with
      | some d =>
        if d.value.isSome then (st, d.value.getD undefV)
        else
          match d.getf.getD undefV with
          | .func id => ({ st with calls := st.calls ++ [id] }, fv id)
          | _ => (st, undefV)
      | none =>
        match proto with
        | .ref q => getPropChain fv st chain q k
        | _ => (st, undefV)
    | _ => (st, undefV)

/-- Top-level property read `obj[key]`. -/
def getProp (fv : Nat → Value) (st : St) (p : Nat) (k : Key) : St × Value :=
  getPropChain fv st (st.heap.length + 1) p k

/-- The JS `key in obj` test: own property or anywhere up the prototype
chain (no getter is invoked). -/
def keyInChain (h : Heap) (chain : Nat) (p : Nat) (k : Key) : Bool :=
  match chain with
  | 0 => false
  | chain + 1 =>
    match h[p]? with
    | some (.record proto props) =>
      if propsHas props k then true
      else
        match proto with
        | .ref q => keyInChain h chain q k
        | _ => false
    | _ => false

/-- Top-level `key in obj`. -/
def keyIn (h : Heap) (p : Nat) (k : Key) : Bool :=
  keyInChain h (h.length + 1) p k

/-- Options of the clone engine.  The source spells the first option
`preservesImutable`; `fallback` is not a field because the engines always
run with the default fallback (a `cloneObject` over the value). -/
structure CloneOptions where
  preservesImutable : Bool
  preservesEnumerable : Bool
deriving DecidableEq, Repr

/-- The clone memo: pairs (original address, clone address), the WeakMap the
engine fills before recursing into an object's children. -/
abbrev CloneSeen := List (Nat × Nat)

/-- Memo lookup (first match; an original is entered at most once). -/
def cloneSeenGet (seen : CloneSeen) (p : Nat) : Option Nat :=
  match seen with
  | [] => none
  | (o, c) :: rest => if o = p then some c else cloneSeenGet rest p

/-- The in-place slot write `clone[i] = v` on the array cell at `c`. -/
def arrWriteAt (st : St) (c i : Nat) (v : Value) : St :=
  match st.heap[c]? with
  | some (.arr cur) => writeSt st c (.arr (cur.set i v))
  | _ => st

/-- The in-place `set.add(v)` on the Set cell at `c`. -/
def setAddOn (st : St) (c : Nat) (v : Value) : St :=
  match st.heap[c]? with
  | some (.setO cur) => writeSt st c (.setO (setAddMember cur v))
  | _ => st

/-- The in-place `map.set(k, v)` on the Map cell at `c`. -/
def mapSetOn (st : St) (c : Nat) (k v : Value) : St :=
  match st.heap[c]? with
  | some (.mapO cur) => writeSt st c (.mapO (mapSetEntry cur k v))
  | _ => st

mutual

/-- The embedded `deepClone` dispatcher of the clone engine (clone.js, the
WeakMap engine): arrays, plain objects, Sets and Maps recurse with the memo;
Dates and RegExps are duplicated by their copy constructor (unmemoized, as
in the source); everything else goes to the default fallback, which is
`cloneObject` (and returns non-object values unchanged).  The
`preservesImutable` post-pass replicating extensibility / seal / freeze
state is the identity here because object-level freeze state is not
modelled.  Fuel exhaustion yields `none`. -/
def deepClone (fuel : Nat) (opts : CloneOptions) (st : St) (seen : CloneSeen)
    (v : Value) : Option (St × CloneSeen × Value) :=
  match fuel with
  | 0 => none
  | fuel + 1 =>
    match v with
    | .ref p =>
      match st.heap[p]? with
      | some (.arr elems) => cloneArray fuel opts st seen p elems
      | some (.record proto props) => cloneObject fuel opts st seen p proto props
      | some (.setO elems) => cloneSet fuel opts st seen p elems
      | some (.mapO entries) => cloneMap fuel opts st seen p entries
      | some (.date t) =>
        let (st1, c) := allocSt st (.date t)
        some (st1, seen, .ref c)
      | some (.regex s f) =>
        let (st1, c) := allocSt st (.regex s f)
        some (st1, seen, .ref c)
      | none => some (st, seen, v)
    | _ => some (st, seen, v)
termination_by structural fuel

/-- The embedded `cloneArray`: memo hit returns the existing clone; else a
fresh array of the same length is allocated and memoized before the
per-element recursion fills it in place. -/
def cloneArray (fuel : Nat) (opts : CloneOptions) (st : St) (seen : CloneSeen)
    (p : Nat) (elems : List Value) : Option (St × CloneSeen × Value) :=
  match fuel with
  | 0 => none
  | fuel + 1 =>
    match cloneSeenGet seen p with
    | some c => some (st, seen, .ref c)
    | none =>
      let (st1, c) := allocSt st (.arr (List.replicate elems.length undefV))
      match cloneArrayElems fuel opts st1 ((p, c) :: seen) c 0 elems with
      | none => none
      | some (st2, seen2) => some (st2, seen2, .ref c)
termination_by structural fuel

/-- The element loop of `cloneArray`: clones `elems[i]` and writes slot `i`
of the clone cell. -/
def cloneArrayElems (fuel : Nat) (opts : CloneOptions) (st : St) (seen : CloneSeen)
    (c : Nat) (i : Nat) (elems : List Value) : Option (St × CloneSeen) :=
  match fuel with
  | 0 => none
  | fuel + 1 =>
    match elems with
    | [] => some (st, seen)
    | e :: rest =>
      match deepClone fuel opts st seen e with
      | none => none
      | some (st1, seen1, ce) =>
        cloneArrayElems fuel opts (arrWriteAt st1 c i ce) seen1 c (i + 1) rest
termination_by structural fuel

/-- The embedded `cloneObject`: non-object values (primitives and functions,
which reach it through the default fallback) return unchanged; a record hits
the memo or allocates `Object.create(Object.getPrototypeOf(value))`,
memoizes it, and clones property by property. -/
def cloneObject (fuel : Nat) (opts : CloneOptions) (st : St) (seen : CloneSeen)
    (p : Nat) (proto : Proto) (props : List (Key × Descriptor)) :
    Option (St × CloneSeen × Value) :=
  match fuel with
  | 0 => none
  | fuel + 1 =>
    match cloneSeenGet seen p with
    | some c => some (st, seen, .ref c)
    | none =>
      let (st1, c) := allocSt st (.record proto [])
      match cloneProps fuel opts st1 ((p, c) :: seen) c props with
      | none => none
      | some (st2, seen2) => some (st2, seen2, .ref c)
termination_by structural fuel

/-- The property loop of `cloneObject`: one `cloneProperty` per own key, in
`Reflect.ownKeys` order (the key list is the snapshot the loop iterates; the
source object is never mutated during the clone). -/
def cloneProps (fuel : Nat) (opts : CloneOptions) (st : St) (seen : CloneSeen)
    (c : Nat) (props : List (Key × Descriptor)) : Option (St × CloneSeen) :=
  match fuel with
  | 0 => none
  | fuel + 1 =>
    match props with
    | [] => some (st, seen)
    | (k, d) :: rest =>
      match cloneProperty fuel opts st seen c k d with
      | none => none
      | some (st1, seen1) => cloneProps fuel opts st1 seen1 c rest
termination_by structural fuel

/-- The embedded `cloneProperty`: a data property clones its value and is
redefined with `enumerable` kept only under `preservesEnumerable` and
`writable` / `configurable` kept only under `preservesImutable` (defaulting
to fully mutable); an accessor property copies its `get` / `set` slots
as-is — no getter is ever invoked. -/
def cloneProperty (fuel : Nat) (opts : CloneOptions) (st : St) (seen : CloneSeen)
    (c : Nat) (k : Key) (d : Descriptor) : Option (St × CloneSeen) :=
  match fuel with
  | 0 => none
  | fuel + 1 =>
    if d.value.isSome then
      match deepClone fuel opts st seen (d.value.getD undefV) with
      | none => none
      | some (st1, seen1, cv) =>
        some (definePropertySt st1 c k
          ⟨some cv,
           some (if opts.preservesImutable then d.writable.getD false else true),
           none, none,
           some (if opts.preservesEnumerable then d.enumerable.getD false else true),
           some (if opts.preservesImutable then d.configurable.getD false else true)⟩,
          seen1)
    else
      some (definePropertySt st c k
        ⟨none, none,
         some (jsField d.getf), some (jsField d.setf),
         some (if opts.preservesEnumerable then d.enumerable.getD false else true),
         some (if opts.preservesImutable then d.configurable.getD false else true)⟩,
        seen)
termination_by structural fuel

/-- The embedded `cloneSet`: fresh empty Set memoized before the member loop
adds each cloned member. -/
def cloneSet (fuel : Nat) (opts : CloneOptions) (st : St) (seen : CloneSeen)
    (p : Nat) (elems : List Value) : Option (St × CloneSeen × Value) :=
  match fuel with
  | 0 => none
  | fuel + 1 =>
    match cloneSeenGet seen p with
    | some c => some (st, seen, .ref c)
    | none =>
      let (st1, c) := allocSt st (.setO [])
      match cloneSetElems fuel opts st1 ((p, c) :: seen) c elems with
      | none => none
      | some (st2, seen2) => some (st2, seen2, .ref c)
termination_by structural fuel

/-- The member loop of `cloneSet`. -/
def cloneSetElems (fuel : Nat) (opts : CloneOptions) (st : St) (seen : CloneSeen)
    (c : Nat) (elems : List Value) : Option (St × CloneSeen) :=
  match fuel with
  | 0 => none
  | fuel + 1 =>
    match elems with
    | [] => some (st, seen)
    | e :: rest =>
      match deepClone fuel opts st seen e with
      | none => none
      | some (st1, seen1, ce) =>
        cloneSetElems fuel opts (setAddOn st1 c ce) seen1 c rest
termination_by structural fuel

/-- The embedded `cloneMap`: fresh empty Map memoized before the entry loop
sets each entry with both key and value cloned. -/
def cloneMap (fuel : Nat) (opts : CloneOptions) (st : St) (seen : CloneSeen)
    (p : Nat) (entries : List (Value × Value)) : Option (St × CloneSeen × Value) :=
  match fuel with
  | 0 => none
  | fuel + 1 =>
    match cloneSeenGet seen p with
    | some c => some (st, seen, .ref c)
    | none =>
      let (st1, c) := allocSt st (.mapO [])
      match cloneMapEntries fuel opts st1 ((p, c) :: seen) c entries with
      | none => none
      | some (st2, seen2) => some (st2, seen2, .ref c)
termination_by structural fuel

/-- The entry loop of `cloneMap`. -/
def cloneMapEntries (fuel : Nat) (opts : CloneOptions) (st : St) (seen : CloneSeen)
    (c : Nat) (entries : List (Value × Value)) : Option (St × CloneSeen) :=
  match fuel with
  | 0 => none
  | fuel + 1 =>
    match entries with
    | [] => some (st, seen)
    | (k, v) :: rest =>
      match deepClone fuel opts st seen k with
      | none => none
      | some (st1, seen1, ck) =>
        match deepClone fuel opts st1 seen1 v with
        | none => none
        | some (st2, seen2, cv) =>
          cloneMapEntries fuel opts (mapSetOn st2 c ck cv) seen2 c rest
termination_by structural fuel

end

/-- The public `clone(input, options)`: fresh memo per top-level call. -/
def cloneEntry (fuel : Nat) (opts : CloneOptions) (st : St) (v : Value) :
    Option (St × Value) :=
  match deepClone fuel opts st [] v with
  | none => none
  | some (st1, _, c) => some (st1, c)

/-- The first loop of `mergeObject`: every own key of `a` that `b` does not
own has its descriptor copied verbatim onto the output
(`Object.defineProperty(output, key, Object.getOwnPropertyDescriptor(a, key))`).
No recursion and no accessor evaluation happens here. -/
def mergeCopyUniqueA (st : St) (out p q : Nat) (keysA : List Key) : St :=
  match keysA with
  | [] => st
  | k :: rest =>
    if hasOwnProp st.heap q k then mergeCopyUniqueA st out p q rest
    else
      match getOwnPropertyDescriptor st.heap p k with
      | some d => mergeCopyUniqueA (definePropertySt st out k d) out p q rest
      | none => mergeCopyUniqueA st out p q rest

mutual

/-- The embedded binary step `mergeAandB` of merge.js: the fill-in rule for
an `undefined` right operand, the `Object.is` identity rule, then dispatch
on matching type tags (array/array, object/object, set/set, map/map); any
other combination returns `b`. -/
def mergeAandB (fuel : Nat) (st : St) (a b : Value) (seen : List Nat) :
    Option (St × List Nat × Value) :=
  match fuel with
  | 0 => none
  | fuel + 1 =>
    if b = undefV then some (st, seen, a)
    else if a = b then some (st, seen, a)
    else
      match a, b with
      | .ref p, .ref q =>
        match st.heap[p]?, st.heap[q]? with
        | some (.arr ea), some (.arr eb) => mergeArray fuel st ea eb seen
        | some (.record _ _), some (.record _ _) => mergeObject fuel st p q seen
        | some (.setO ea), some (.setO eb) => mergeSet fuel st ea eb seen
        | some (.mapO ea), some (.mapO eb) => mergeMap fuel st p ea q eb seen
        | _, _ => some (st, seen, b)
      | _, _ => some (st, seen, b)
termination_by structural fuel

/-- The embedded `mergeArray`: `[...new Set(a.concat(b))]`, a fresh array
holding the concatenation deduplicated to first occurrences. -/
def mergeArray (fuel : Nat) (st : St) (ea eb : List Value) (seen : List Nat) :
    Option (St × List Nat × Value) :=
  match fuel with
  | 0 => none
  | _ + 1 =>
    let (st1, out) := allocSt st (.arr (dedupFirst (ea ++ eb)))
    some (st1, seen, .ref out)

/-- The embedded `mergeSet`: `new Set([...a, ...b])`. -/
def mergeSet (fuel : Nat) (st : St) (ea eb : List Value) (seen : List Nat) :
    Option (St × List Nat × Value) :=
  match fuel with
  | 0 => none
  | _ + 1 =>
    let (st1, out) := allocSt st (.setO (dedupFirst (ea ++ eb)))
    some (st1, seen, .ref out)

/-- The embedded `mergeMap`: the cycle guard returns `b` when this left map
was already entered in this top-level call; otherwise the left map is marked
seen, `new Map(a)` starts the output, and each entry of `b` either merges
into an existing key or is inserted as-is. -/
def mergeMap (fuel : Nat) (st : St) (p : Nat) (ea : List (Value × Value))
    (q : Nat) (eb : List (Value × Value)) (seen : List Nat) :
    Option (St × List Nat × Value) :=
  match fuel with
  | 0 => none
  | fuel + 1 =>
    if p ∈ seen then some (st, seen, .ref q)
    else
      let seen1 := p :: seen
      let (st1, out) := allocSt st (.mapO ea)
      match mergeMapEntries fuel st1 out eb seen1 with
      | none => none
      | some (st2, seen2) => some (st2, seen2, .ref out)
termination_by structural fuel

/-- The entry loop of `mergeMap` over `b`'s entries (a snapshot, as `for..of`
over the Map takes it; the output cell is re-read every iteration because
the recursive merges extend the heap). -/
def mergeMapEntries (fuel : Nat) (st : St) (out : Nat)
    (entries : List (Value × Value)) (seen : List Nat) :
    Option (St × List Nat) :=
  match fuel with
  | 0 => none
  | fuel + 1 =>
    match entries with
    | [] => some (st, seen)
    | (k, bv) :: rest =>
      match st.heap[out]? with
      | some (.mapO cur) =>
        match mapGetEntry cur k with
        | some av =>
          match mergeAandB fuel st av bv seen with
          | none => none
          | some (st1, seen1, m) =>
            mergeMapEntries fuel (mapSetOn st1 out k m) out rest seen1
        | none =>
          mergeMapEntries fuel (mapSetOn st out k bv) out rest seen
      | _ => mergeMapEntries fuel st out rest seen
termination_by structural fuel

/-- The embedded `mergeObject`: the cycle guard returns `b` when this left
record was already entered in this top-level call; otherwise the left record
is marked seen, the output is `Object.create(Object.getPrototypeOf(a))`, the
keys unique to `a` are copied verbatim, and the keys of `b` are either
descriptor-merged (when `a` owns them too) or copied verbatim. -/
def mergeObject (fuel : Nat) (st : St) (p q : Nat) (seen : List Nat) :
    Option (St × List Nat × Value) :=
  match fuel with
  | 0 => none
  | fuel + 1 =>
    if p ∈ seen then some (st, seen, .ref q)
    else
      let seen1 := p :: seen
      let (st1, out) := allocSt st (.record (protoOf st.heap p) [])
      let st2 := mergeCopyUniqueA st1 out p q (ownKeys st1.heap p)
      match mergeKeysFromB fuel st2 out p q (ownKeys st2.heap q) seen1 with
      | none => none
      | some (st3, seen2) => some (st3, seen2, .ref out)
termination_by structural fuel

/-- The second loop of `mergeObject`, over `Reflect.ownKeys(b)`: a key `a`
also owns goes through `mergeDescriptor` (skipped if either descriptor
read fails, mirroring the `if(!da || !db) continue` guard); a key unique to
`b` has its descriptor copied verbatim. -/
def mergeKeysFromB (fuel : Nat) (st : St) (out p q : Nat) (keysB : List Key)
    (seen : List Nat) : Option (St × List Nat) :=
  match fuel with
  | 0 => none
  | fuel + 1 =>
    match keysB with
    | [] => some (st, seen)
    | k :: rest =>
      if hasOwnProp st.heap p k then
        match getOwnPropertyDescriptor st.heap p k,
              getOwnPropertyDescriptor st.heap q k with
        | some da, some db =>
          match mergeDescriptor fuel st da db seen with
          | none => none
          | some (st1, seen1, d) =>
            mergeKeysFromB fuel (definePropertySt st1 out k d) out p q rest seen1
        | _, _ => mergeKeysFromB fuel st out p q rest seen
      else
        match getOwnPropertyDescriptor st.heap q k with
        | some db =>
          mergeKeysFromB fuel (definePropertySt st out k db) out p q rest seen
        | none => mergeKeysFromB fuel st out p q rest seen
termination_by structural fuel

/-- The embedded `mergeDescriptor`: enumerable and configurable are the
conjunction of both sides (absent defaulting to true); data+data also
conjoins writable and recursively merges the values; accessor+accessor
takes `b`'s get/set per slot with fallback to `a`'s; a mixed pair takes
`b`'s shape — `b`'s literal value or `b`'s accessor slots — and never
evaluates an accessor. -/
def mergeDescriptor (fuel : Nat) (st : St) (da db : Descriptor) (seen : List Nat) :
    Option (St × List Nat × Descriptor) :=
  match fuel with
  | 0 => none
  | fuel + 1 =>
    let e := (da.enumerable.getD true) && (db.enumerable.getD true)
    let c := (da.configurable.getD true) && (db.configurable.getD true)
    if da.value.isSome && db.value.isSome then
      let w := (da.writable.getD true) && (db.writable.getD true)
      match mergeAandB fuel st (jsField da.value) (jsField db.value) seen with
      | none => none
      | some (st1, seen1, v) =>
        some (st1, seen1, ⟨some v, some w, none, none, some e, some c⟩)
    else if !da.value.isSome && !db.value.isSome then
      some (st, seen,
        ⟨none, none, some (jsOr (jsField db.getf) (jsField da.getf)),
          some (jsOr (jsField db.setf) (jsField da.setf)), some e, some c⟩)
    else if db.value.isSome then
      some (st, seen,
        ⟨db.value, some ((da.writable.getD true) && (db.writable.getD true)),
          none, none, some e, some c⟩)
    else
      some (st, seen,
        ⟨none, none, some (jsField db.getf), some (jsField db.setf), some e, some c⟩)
termination_by structural fuel

end

/-- The public `merge(a, b, ...c)`: a fresh visited set per call, the binary
fold, and — once the argument list is exhausted — the finishing
`deepclone(output, { preservesImutable: true })` pass (with
`preservesEnumerable` at its default `true`). -/
def merge (fuel : Nat) (st : St) (a b : Value) (rest : List Value) :
    Option (St × Value) :=
  match mergeAandB fuel st a b [] with
  | none => none
  | some (st1, _, output) =>
    match rest with
    | [] => cloneEntry fuel ⟨true, true⟩ st1 output
    | r :: rs => merge fuel st1 output r rs
termination_by structural rest

/-- The exceptions the intersect engine can raise: its own
`CircularReferenceError` (a `ReferenceError` subclass carrying a code), and
the host `TypeError` that reading a field of `undefined` raises. -/
inductive JsErr
  | circularReference
  | typeError
deriving DecidableEq, Repr

/-- The `name` of the error object. -/
def JsErr.errName : JsErr → String
  | .circularReference => "CircularReferenceError"
  | .typeError => "TypeError"

/-- The `code` of the error object (only `CircularReferenceError` carries
one). -/
def JsErr.errCode : JsErr → Option String
  | .circularReference => some "E_DEEP_INTERSECT_CIRCULAR_REFERENCE"
  | .typeError => none

/-- One cell of the pairwise intersect memo: the in-progress sentinel (the
source stores the `CircularReferenceError` class itself) or the finished
output cached for reuse. -/
inductive ISeenEntry
  | working
  | done (v : Value)
deriving DecidableEq, Repr

/-- The intersect memo, keyed by the ordered address pair (left, right); the
source nests two WeakMaps, which this flattens. -/
abbrev ISeen := List ((Nat × Nat) × ISeenEntry)

/-- Memo lookup for a pair. -/
def iSeenGet (seen : ISeen) (p q : Nat) : Option ISeenEntry :=
  match seen with
  | [] => none
  | (pq, e) :: rest => if pq = (p, q) then some e else iSeenGet rest p q

/-- Memo update for a pair (replace in place, append when new). -/
def iSeenSet (seen : ISeen) (p q : Nat) (e : ISeenEntry) : ISeen :=
  match seen with
  | [] => [((p, q), e)]
  | (pq, e') :: rest =>
    if pq = (p, q) then (pq, e) :: rest else (pq, e') :: iSeenSet rest p q e

/-- The embedded `hasSeen`, combined with the caller's immediate
`return seen.get(a).get(b)` on a hit: an in-progress pair throws the
`CircularReferenceError`; a finished pair returns its cached output; a new
pair is marked in-progress and the caller proceeds. -/
def hasSeen (seen : ISeen) (p q : Nat) : ISeen × Except JsErr (Option Value) :=
  match iSeenGet seen p q with
  | some .working => (seen, .error .circularReference)
  | some (.done v) => (seen, .ok (some v))
  | none => (iSeenSet seen p q .working, .ok none)

mutual

/-- The embedded binary step `intersectAandB` of the intersect engine: the
`Object.is` identity rule returns the value itself; differing type tags
yield `undefined` (no intersection); arrays and plain records recurse; every
other matching tag also yields `undefined`. -/
def intersectAandB (fuel : Nat) (fv : Nat → Value) (st : St) (a b : Value)
    (seen : ISeen) : Option (Except JsErr (St × ISeen × Value)) :=
  match fuel with
  | 0 => none
  | fuel + 1 =>
    if a = b then some (.ok (st, seen, a))
    else
      match a, b with
      | .ref p, .ref q =>
        match st.heap[p]?, st.heap[q]? with
        | some (.arr ea), some (.arr eb) => intersectArray fuel fv st p ea q eb seen
        | some (.record _ _), some (.record _ _) => intersectObject fuel fv st p q seen
        | _, _ => some (.ok (st, seen, undefV))
      | _, _ => some (.ok (st, seen, undefV))
termination_by structural fuel

/-- The embedded `intersectArray`: memo hit or mark, then the `a.map`
callback per position — keep `a[i]` when `b` contains it (SameValueZero),
else recurse positionally when `typeof a[i] === 'object'`, else
`undefined` — followed by the filter that drops `undefined`, the fresh
output array, and the memo cache write. -/
def intersectArray (fuel : Nat) (fv : Nat → Value) (st : St) (p : Nat)
    (ea : List Value) (q : Nat) (eb : List Value) (seen : ISeen) :
    Option (Except JsErr (St × ISeen × Value)) :=
  match fuel with
  | 0 => none
  | fuel + 1 =>
    match hasSeen seen p q with
    | (_, .error e) => some (.error e)
    | (_, .ok (some v)) => some (.ok (st, seen, v))
    | (seen1, .ok none) =>
      match intersectArrayElems fuel fv st ea 0 eb seen1 with
      | none => none
      | some (.error e) => some (.error e)
      | some (.ok (st1, seen2, values)) =>
        let filtered := values.filter (fun v => v ≠ undefV)
        let (st2, out) := allocSt st1 (.arr filtered)
        some (.ok (st2, iSeenSet seen2 p q (.done (.ref out)), .ref out))
termination_by structural fuel

/-- The element loop of `intersectArray` (the `a.map` callback at position
`i`, producing the pre-filter list of results). -/
def intersectArrayElems (fuel : Nat) (fv : Nat → Value) (st : St)
    (ea : List Value) (i : Nat) (eb : List Value) (seen : ISeen) :
    Option (Except JsErr (St × ISeen × List Value)) :=
  match fuel with
  | 0 => none
  | fuel + 1 =>
    match ea with
    | [] => some (.ok (st, seen, []))
    | v :: rest =>
      if svzMem v eb then
        match intersectArrayElems fuel fv st rest (i + 1) eb seen with
        | none => none
        | some (.error e) => some (.error e)
        | some (.ok (st1, seen1, vs)) => some (.ok (st1, seen1, v :: vs))
      else if typeofIsObject v then
        match intersectAandB fuel fv st v (eb.getD i undefV) seen with
        | none => none
        | some (.error e) => some (.error e)
        | some (.ok (st1, seen1, r)) =>
          match intersectArrayElems fuel fv st1 rest (i + 1) eb seen1 with
          | none => none
          | some (.error e) => some (.error e)
          | some (.ok (st2, seen2, vs)) => some (.ok (st2, seen2, r :: vs))
      else
        match intersectArrayElems fuel fv st rest (i + 1) eb seen with
        | none => none
        | some (.error e) => some (.error e)
        | some (.ok (st1, seen1, vs)) => some (.ok (st1, seen1, undefV :: vs))
termination_by structural fuel

/-- The embedded `intersectObject`: memo hit or mark, a fresh `{}` output,
the key loop, and the memo cache write. -/
def intersectObject (fuel : Nat) (fv : Nat → Value) (st : St) (p q : Nat)
    (seen : ISeen) : Option (Except JsErr (St × ISeen × Value)) :=
  match fuel with
  | 0 => none
  | fuel + 1 =>
    match hasSeen seen p q with
    | (_, .error e) => some (.error e)
    | (_, .ok (some v)) => some (.ok (st, seen, v))
    | (seen1, .ok none) =>
      let (st1, out) := allocSt st (.record .objectProto [])
      match intersectObjectKeys fuel fv st1 out p q (ownNames st1.heap p) seen1 with
      | none => none
      | some (.error e) => some (.error e)
      | some (.ok (st2, seen2)) =>
        some (.ok (st2, iSeenSet seen2 p q (.done (.ref out)), .ref out))
termination_by structural fuel

/-- The key loop of `intersectObject` over `Object.getOwnPropertyNames(a)`:
a key not `in b` (anywhere on the prototype chain) is skipped; otherwise
`a[key]` and `b[key]` are evaluated (possibly invoking getters) and
recursively intersected; an `undefined` result drops the key; a surviving
key is defined with the AND-ed descriptor flags — reading
`Object.getOwnPropertyDescriptor(b, key).configurable` raises the host
`TypeError` when `b` does not own the key (it was only inherited). -/
def intersectObjectKeys (fuel : Nat) (fv : Nat → Value) (st : St) (out p q : Nat)
    (keys : List Key) (seen : ISeen) : Option (Except JsErr (St × ISeen)) :=
  match fuel with
  | 0 => none
  | fuel + 1 =>
    match keys with
    | [] => some (.ok (st, seen))
    | k :: rest =>
      if !keyIn st.heap q k then intersectObjectKeys fuel fv st out p q rest seen
      else
        let (stA, va) := getProp fv st p k
        let (stB, vb) := getProp fv stA q k
        match intersectAandB fuel fv stB va vb seen with
        | none => none
        | some (.error e) => some (.error e)
        | some (.ok (st1, seen1, value)) =>
          if value = undefV then intersectObjectKeys fuel fv st1 out p q rest seen1
          else
            match getOwnPropertyDescriptor st1.heap p k with
            | none => some (.error .typeError)
            | some da =>
              match getOwnPropertyDescriptor st1.heap q k with
              | none => some (.error .typeError)
              | some db =>
                let st2 := definePropertySt st1 out k
                  ⟨some value, some (andFlag da.writable db.writable), none, none,
                    some (andFlag da.enumerable db.enumerable),
                    some (andFlag da.configurable db.configurable)⟩
                intersectObjectKeys fuel fv st2 out p q rest seen1
termination_by structural fuel

end

/-- The public `intersect(a, b, ...c)`: a fresh memo per top-level call and
the left-to-right fold, with no trailing clone pass. -/
def intersect (fuel : Nat) (fv : Nat → Value) (st : St) (a b : Value)
    (rest : List Value) : Option (Except JsErr (St × Value)) :=
  match intersectAandB fuel fv st a b [] with
  | none => none
  | some (.error e) => some (.error e)
  | some (.ok (st1, _, output)) =>
    match rest with
    | [] => some (.ok (st1, output))
    | r :: rs => intersect fuel fv st1 output r rs

/-- The `Object.prototype.toString.call(v) === '[object Object]'` test: is
the value a reference to a plain record. -/
def isRecordVal (h : Heap) (v : Value) : Bool :=
  match v with
  | .ref r =>
    match h[r]? with
    | some (.record _ _) => true
    | _ => false
  | _ => false

mutual

/-- The embedded binary step `assignB2A` of assign.js: fill-in rule for an
`undefined` source, `Object.is` identity rule, then dispatch on matching
type tags; any other combination returns `b` (the caller stores it). -/
def assignB2A (fuel : Nat) (st : St) (a b : Value) : Option (St × Value) :=
  match fuel with
  | 0 => none
  | fuel + 1 =>
    if b = undefV then some (st, a)
    else if a = b then some (st, a)
    else
      match a, b with
      | .ref p, .ref q =>
        match st.heap[p]?, st.heap[q]? with
        | some (.arr ea), some (.arr eb) =>
          some (writeSt st p (.arr (dedupFirst (ea ++ eb))), .ref p)
        | some (.record _ _), some (.record _ _) => assignObject fuel st p q
        | some (.setO ea), some (.setO eb) =>
          some (writeSt st p (.setO (eb.foldl setAddMember ea)), .ref p)
        | some (.mapO _), some (.mapO eb) =>
          match assignMapEntries fuel st p eb with
          | none => none
          | some st1 => some (st1, .ref p)
        | _, _ => some (st, b)
      | _, _ => some (st, b)
termination_by structural fuel

/-- The entry loop of `assignMap` over `b`'s entries: an existing key merges
the values in place through `assignB2A`, a new key is inserted as-is. -/
def assignMapEntries (fuel : Nat) (st : St) (p : Nat)
    (entries : List (Value × Value)) : Option St :=
  match fuel with
  | 0 => none
  | fuel + 1 =>
    match entries with
    | [] => some st
    | (k, v) :: rest =>
      match st.heap[p]? with
      | some (.mapO cur) =>
        match mapGetEntry cur k with
        | some av =>
          match assignB2A fuel st av v with
          | none => none
          | some (st1, m) =>
            assignMapEntries fuel (mapSetOn st1 p k m) p rest
        | none =>
          assignMapEntries fuel (mapSetOn st p k v) p rest
      | _ => assignMapEntries fuel st p rest
termination_by structural fuel

/-- The embedded `assignObject`: iterates `Reflect.ownKeys(b)` (snapshot)
over the key loop and returns `a`. -/
def assignObject (fuel : Nat) (st : St) (p q : Nat) : Option (St × Value) :=
  match fuel with
  | 0 => none
  | fuel + 1 =>
    match assignObjectKeys fuel st p q (ownKeys st.heap q) with
    | none => none
    | some st1 => some (st1, .ref p)
termination_by structural fuel

/-- The key loop of `assignObject`.  Per key of `b`: when both sides hold
data properties whose values are plain records, recurse into those records
(regardless of the target property's flags); otherwise an existing
configurable property is redefined from `b`'s descriptor, an existing
non-configurable but writable data property gets only its value replaced in
place, an existing non-configurable non-writable property is skipped
silently, and a key absent from `a` is defined from `b`'s descriptor.  All
reads are descriptor reads — no getter is invoked. -/
def assignObjectKeys (fuel : Nat) (st : St) (p q : Nat) (keys : List Key) :
    Option St :=
  match fuel with
  | 0 => none
  | fuel + 1 =>
    match keys with
    | [] => some st
    | k :: rest =>
      let hasA := hasOwnProp st.heap p k
      let da := if hasA then getOwnPropertyDescriptor st.heap p k else none
      match getOwnPropertyDescriptor st.heap q k with
      | none => assignObjectKeys fuel st p q rest
      | some db =>
        if hasA && (da.map (fun d => d.value.isSome)).getD false && db.value.isSome
            && isRecordVal st.heap (jsField ((da.getD db).value))
            && isRecordVal st.heap (jsField db.value) then
          match jsField ((da.getD db).value), jsField db.value with
          | .ref ra, .ref rb =>
            match assignObject fuel st ra rb with
            | none => none
            | some (st1, _) => assignObjectKeys fuel st1 p q rest
          | _, _ => assignObjectKeys fuel st p q rest
        else
          match da with
          | some da1 =>
            if da1.configurable.getD false then
              match assignPropertyDescriptor fuel st p (some da1) db k with
              | none => none
              | some st1 => assignObjectKeys fuel st1 p q rest
            else if da1.value.isSome && da1.writable.getD false then
              match assignB2A fuel st (jsField da1.value)
                  (if db.value.isSome then jsField db.value else undefV) with
              | none => none
              | some (st1, next) =>
                assignObjectKeys fuel
                  (definePropertySt st1 p k { da1 with value := some next }) p q rest
            else
              assignObjectKeys fuel st p q rest
          | none =>
            match assignPropertyDescriptor fuel st p none db k with
            | none => none
            | some st1 => assignObjectKeys fuel st1 p q rest
termination_by structural fuel

/-- The embedded `assignPropertyDescriptor`: an accessor descriptor from `b`
is copied as-is; a data descriptor first merges `b`'s value onto `a`'s
current value (through `assignB2A`) and defines `{ ...db, value: next }`. -/
def assignPropertyDescriptor (fuel : Nat) (st : St) (p : Nat)
    (da : Option Descriptor) (db : Descriptor) (k : Key) : Option St :=
  match fuel with
  | 0 => none
  | fuel + 1 =>
    if !db.value.isSome then some (definePropertySt st p k db)
    else
      let aValue :=
        match da with
        | some d => if d.value.isSome then jsField d.value else undefV
        | none => undefV
      match assignB2A fuel st aValue (jsField db.value) with
      | none => none
      | some (st1, next) =>
        some (definePropertySt st1 p k { db with value := some next })
termination_by structural fuel

end

/-- The public `assign(a, ...b)`: folds `assignB2A` over the sources purely
for its mutation (each return value is discarded) and returns `a` itself. -/
def assign (fuel : Nat) (st : St) (a : Value) (bs : List Value) :
    Option (St × Value) :=
  match bs with
  | [] => some (st, a)
  | b :: rest =>
    match assignB2A fuel st a b with
    | none => none
    | some (st1, _) => assign fuel st1 a rest

/-! ## Concrete fixtures

Small heaps mirroring the repository's own test inputs, used by the
witnesses and counterexamples below. -/

/-- Key literal helper. -/
def kS (s : String) : Key := .strk s

/-- Number literal helper. -/
def nV (n : Int) : Value := .prim (.num n)

/-- A fully mutable data descriptor (what a plain object literal property
gets). -/
def dD (v : Value) : Descriptor := .mkData v true true true

/-- A getter table that is never consulted. -/
def noFv : Nat → Value := fun _ => undefV

/-- Two self-referencing records: `a.self = a` at 0, `b.self = b` at 1. -/
def exCycSt : St :=
  ⟨[.record .objectProto [(kS ("self"), dD (.ref 0))],
    .record .objectProto [(kS ("self"), dD (.ref 1))]], []⟩

/-- One record `a.foo = 1` with restrictive flags (writable, non-configurable)
at 0 and `b.foo = 2` (non-writable, configurable) at 1 — the repository's
"prioritizes restrictive descriptors" merge test. -/
def exFlagSt : St :=
  ⟨[.record .objectProto [(kS ("foo"), .mkData (nV 1) true true false)],
    .record .objectProto [(kS ("foo"), .mkData (nV 2) false true true)]], []⟩

/-- A single array `[1, 1, 2]` at address 0. -/
def exDupArrSt : St :=
  ⟨[.arr [nV 1, nV 1, nV 2]], []⟩

/-- Records with accessor property `foo` on both sides: getter 7 on `a`,
getter 8 on `b` (no setters). -/
def exGetterSt : St :=
  ⟨[.record .objectProto [(kS ("foo"), .mkAccessor (.func 7) undefV true true)],
    .record .objectProto [(kS ("foo"), .mkAccessor (.func 8) undefV true true)]], []⟩

/-- A getter table returning the getter's id as a number. -/
def idFv : Nat → Value := fun i => .prim (.num (Int.ofNat i))

/-- The inherited-key fixture: `parent = { k: 42 }` at 0, `b` with prototype
`parent` and no own properties at 1, `a = { k: 42 }` at 2. -/
def exInheritSt : St :=
  ⟨[.record .objectProto [(kS ("k"), dD (nV 42))],
    .record (.ref 0) [],
    .record .objectProto [(kS ("k"), dD (nV 42))]], []⟩

/-- A record `{ k: undefined }` at address 0. -/
def exUndefKeySt : St :=
  ⟨[.record .objectProto [(kS ("k"), dD undefV)]], []⟩

/-- The type-mismatch fixture: `{ foo: [1,2] }` at 1 (array at 0) and
`{ foo: { bar: 1 } }` at 3 (record at 2). -/
def exMismatchSt : St :=
  ⟨[.arr [nV 1, nV 2],
    .record .objectProto [(kS ("foo"), dD (.ref 0))],
    .record .objectProto [(kS ("bar"), dD (nV 1))],
    .record .objectProto [(kS ("foo"), dD (.ref 2))]], []⟩

/-- The nested-mutation fixture for assign: `a = { k: ncnw → { x: 1 } }`
(record `{x:1}` at 0, `a` at 1) and `b = { k: { y: 2 } }` (record `{y:2}` at
2, `b` at 3), where `a.k` is non-writable and non-configurable. -/
def exNestedNcnwSt : St :=
  ⟨[.record .objectProto [(kS ("x"), dD (nV 1))],
    .record .objectProto [(kS ("k"), .mkData (.ref 0) false false false)],
    .record .objectProto [(kS ("y"), dD (nV 2))],
    .record .objectProto [(kS ("k"), dD (.ref 2))]], []⟩

/-- Two plain arrays for the assign witness: `[1,2,3]` at 0, `[3,4,5]`
at 1. -/
def exAssignArrSt : St :=
  ⟨[.arr [nV 1, nV 2, nV 3], .arr [nV 3, nV 4, nV 5]], []⟩

/-! ## C3 — assign mutates in place and returns the target reference -/

/-- C3: for every target `a` and source list, whatever mutation the fold
performs, the value `assign` returns is exactly the reference `a` it was
given (`b.forEach((b) => assignB2A(a, b)); return a`). -/
theorem C3_assign_returns_target (fuel : Nat) (a : Value) :
    ∀ (bs : List Value) (st st1 : St) (v : Value),
      assign fuel st a bs = some (st1, v) → v = a := by
  intro bs
  induction bs with
  | nil =>
    intro st st1 v h
    simp only [assign] at h
    exact (Prod.mk.injEq _ _ _ _ ▸ (Option.some.injEq _ _ ▸ h)).2.symm
  | cons b rest ih =>
    intro st st1 v h
    simp only [assign] at h
    cases hb : assignB2A fuel st a b with
    | none => rw [hb] at h; exact absurd h (by simp)
    | some r => rw [hb] at h; exact ih r.1 st1 v h

/-- Witness for C3 at a concrete run (the repository's array-assign test:
`assign([1,2,3], [3,4,5])` merges in place and returns the target). -/
theorem C3_assign_returns_target_witness :
    assign 20 exAssignArrSt (.ref 0) [.ref 1]
        = some (⟨[.arr [nV 1, nV 2, nV 3, nV 4, nV 5],
                  .arr [nV 3, nV 4, nV 5]], []⟩, .ref 0)
      ∧ (Value.ref 0) = (Value.ref 0) := by
  refine ⟨by rfl, ?_⟩
  exact C3_assign_returns_target 20 (.ref 0) [.ref 1] exAssignArrSt _ _ (by rfl)

/-! ## C6 — the merge descriptor policy -/

/-- C6: when merge combines two descriptors for one key, enumerable and
configurable are the AND of the two sides (defaulting to true when absent,
as the flag-less accessor case shows); data+data also ANDs writable and
recursively merges the two values; accessor+accessor takes `b`'s get/set
per slot when present (`b` wins, `a` fills the gap); mixed pairs take `b`'s
shape — `b`'s literal value or `b`'s accessor slots — leaving the state
(heap and getter-call log) untouched, so no accessor is evaluated. -/
theorem C6_mergeDescriptor_policy
    (fuel : Nat) (st : St) (seen : List Nat)
    (va vb ga sa gb sb : Value) (wa ea ca wb eb cb : Bool) :
    (∀ st1 seen1 d,
        mergeDescriptor (fuel + 1) st (.mkData va wa ea ca) (.mkData vb wb eb cb) seen
            = some (st1, seen1, d) →
        ∃ v, mergeAandB fuel st va vb seen = some (st1, seen1, v) ∧
          d = ⟨some v, some (wa && wb), none, none, some (ea && eb), some (ca && cb)⟩)
    ∧ mergeDescriptor (fuel + 1) st (.mkAccessor ga sa ea ca) (.mkAccessor gb sb eb cb) seen
        = some (st, seen,
            ⟨none, none, some (jsOr gb ga), some (jsOr sb sa),
              some (ea && eb), some (ca && cb)⟩)
    ∧ mergeDescriptor (fuel + 1) st (.mkAccessor ga sa ea ca) (.mkData vb wb eb cb) seen
        = some (st, seen, ⟨some vb, some wb, none, none, some (ea && eb), some (ca && cb)⟩)
    ∧ mergeDescriptor (fuel + 1) st (.mkData va wa ea ca) (.mkAccessor gb sb eb cb) seen
        = some (st, seen, ⟨none, none, some gb, some sb, some (ea && eb), some (ca && cb)⟩)
    ∧ mergeDescriptor (fuel + 1) st ⟨none, none, some ga, some sa, none, none⟩
          ⟨none, none, some gb, some sb, none, none⟩ seen
        = some (st, seen,
            ⟨none, none, some (jsOr gb ga), some (jsOr sb sa), some true, some true⟩) := by
  refine ⟨?_, ?_, ?_, ?_, ?_⟩
  · intro st1 seen1 d h
    cases hm : mergeAandB fuel st va vb seen with
    | none => simp [mergeDescriptor, Descriptor.mkData, jsField, hm] at h
    | some r =>
      obtain ⟨ra, rb, rc⟩ := r
      simp [mergeDescriptor, Descriptor.mkData, jsField, hm] at h
      obtain ⟨h1, h2, h3⟩ := h
      subst h1; subst h2; subst h3
      exact ⟨rc, rfl, rfl⟩
  · simp [mergeDescriptor, Descriptor.mkAccessor, jsField]
  · simp [mergeDescriptor, Descriptor.mkAccessor, Descriptor.mkData, jsField]
  · simp [mergeDescriptor, Descriptor.mkAccessor, Descriptor.mkData, jsField]
  · simp [mergeDescriptor, jsField]

/-- Witness for C6 at a concrete data+data pair (the repository's
"prioritizes restrictive descriptors" flags). -/
theorem C6_mergeDescriptor_policy_witness :
    mergeDescriptor 2 (⟨[], []⟩ : St) (.mkData (nV 1) true true false)
        (.mkData (nV 2) false true true) []
      = some (⟨[], []⟩, [],
          ⟨some (nV 2), some false, none, none, some true, some false⟩)
    ∧ ∃ v, mergeAandB 1 (⟨[], []⟩ : St) (nV 1) (nV 2) [] = some (⟨[], []⟩, [], v)
        ∧ (⟨some (nV 2), some false, none, none, some true, some false⟩ : Descriptor)
            = ⟨some v, some (true && false), none, none,
                some (true && true), some (false && true)⟩ := by
  refine ⟨by rfl, ?_⟩
  exact (C6_mergeDescriptor_policy 1 ⟨[], []⟩ [] (nV 1) (nV 2) undefV undefV undefV undefV
    true true false false true true).1 _ _ _ (by rfl)

/-! ## C8 — merge cuts cycles by returning the right-hand value -/

/-- The concrete cyclic merge run: `a.self = a`, `b.self = b`. -/
def mergeCycRun : Option (St × Value) :=
  merge 30 exCycSt (.ref 0) (.ref 1) []

/-- C8: re-entering a left-hand record or map that was already entered in
the same top-level call makes the engine return the right-hand value
unmerged (the guard at the head of `mergeObject` / `mergeMap`), and on the
two self-referencing records the whole merge terminates with the given fuel
and produces `result.self` structurally equal to `b.self`: a fresh record
whose `self` property points back to itself (the clone of `b`). -/
theorem C8_merge_cycle_guard :
    (∀ (fuel : Nat) (st : St) (p q : Nat) (seen : List Nat), p ∈ seen →
        mergeObject (fuel + 1) st p q seen = some (st, seen, .ref q))
    ∧ (∀ (fuel : Nat) (st : St) (p : Nat) (ea : List (Value × Value)) (q : Nat)
          (eb : List (Value × Value)) (seen : List Nat), p ∈ seen →
        mergeMap (fuel + 1) st p ea q eb seen = some (st, seen, .ref q))
    ∧ mergeCycRun.map Prod.snd = some (.ref 3)
    ∧ mergeCycRun.bind (fun r => r.1.heap[3]?)
        = some (.record .objectProto [(kS ("self"), dD (.ref 4))])
    ∧ mergeCycRun.bind (fun r => r.1.heap[4]?)
        = some (.record .objectProto [(kS ("self"), dD (.ref 4))]) := by
  refine ⟨?_, ?_, by rfl, by rfl, by rfl⟩
  · intro fuel st p q seen h
    simp only [mergeObject]
    rw [if_pos h]
  · intro fuel st p ea q eb seen h
    simp only [mergeMap]
    rw [if_pos h]

/-- Witness for C8's guard statements at a concrete seen-set. -/
theorem C8_merge_cycle_guard_witness :
    (0 : Nat) ∈ [0]
    ∧ mergeObject 1 (⟨[], []⟩ : St) 0 1 [0] = some (⟨[], []⟩, [0], .ref 1)
    ∧ mergeMap 1 (⟨[], []⟩ : St) 0 [] 1 [] [0] = some (⟨[], []⟩, [0], .ref 1) := by
  refine ⟨by decide, ?_, ?_⟩
  · exact C8_merge_cycle_guard.1 0 ⟨[], []⟩ 0 1 [0] (by decide)
  · exact C8_merge_cycle_guard.2.1 0 ⟨[], []⟩ 0 [] 1 [] [0] (by decide)

/-! ## C4 — the intersect cycle error and its cache -/

/-- The concrete cyclic intersect run over the two self-referencing
records. -/
def intersectCycRun : Option (Except JsErr (St × Value)) :=
  intersect 30 noFv exCycSt (.ref 0) (.ref 1) []

/-- The concrete inherited-key intersect run: `a = { k: 42 }` against a `b`
that only inherits `k` from its prototype. -/
def intersectInheritRun : Option (Except JsErr (St × Value)) :=
  intersect 20 noFv exInheritSt (.ref 2) (.ref 1) []

/-- C4 counterexample: the claim says no situation other than a true cycle
raises an exception in intersect, but when a key of `a` is only inherited
by `b` and the two values intersect, `Object.getOwnPropertyDescriptor(b, key)`
is `undefined` and reading `.configurable` from it raises a host
`TypeError` — an exception that is not the `CircularReferenceError`. -/
theorem C4_counterexample_typeError :
    intersectInheritRun = some (.error .typeError)
    ∧ JsErr.typeError ≠ JsErr.circularReference
    ∧ JsErr.errCode .typeError ≠ some ("E_DEEP_INTERSECT_CIRCULAR_REFERENCE") := by
  exact ⟨by rfl, by decide, by decide⟩

/-- C4 (amended): re-entering a pair still marked in progress raises the
`CircularReferenceError` (whose name and code are as claimed), a pair whose
result is already cached is reused without any error, and on the two
self-referencing records the whole call fails with exactly that error.  The
one other exception intersect can raise is the inherited-key `TypeError`
exhibited by the counterexample. -/
theorem C4_intersect_cycle_error :
    (∀ (fuel : Nat) (fv : Nat → Value) (st : St) (p q : Nat) (seen : ISeen),
        iSeenGet seen p q = some .working →
        intersectObject (fuel + 1) fv st p q seen = some (.error .circularReference))
    ∧ (∀ (fuel : Nat) (fv : Nat → Value) (st : St) (p q : Nat)
          (ea eb : List Value) (seen : ISeen),
        iSeenGet seen p q = some .working →
        intersectArray (fuel + 1) fv st p ea q eb seen = some (.error .circularReference))
    ∧ (∀ (fuel : Nat) (fv : Nat → Value) (st : St) (p q : Nat) (v : Value)
          (seen : ISeen),
        iSeenGet seen p q = some (.done v) →
        intersectObject (fuel + 1) fv st p q seen = some (.ok (st, seen, v)))
    ∧ (∀ (fuel : Nat) (fv : Nat → Value) (st : St) (p q : Nat)
          (ea eb : List Value) (v : Value) (seen : ISeen),
        iSeenGet seen p q = some (.done v) →
        intersectArray (fuel + 1) fv st p ea q eb seen = some (.ok (st, seen, v)))
    ∧ intersectCycRun = some (.error .circularReference)
    ∧ JsErr.errName .circularReference = "CircularReferenceError"
    ∧ JsErr.errCode .circularReference = some ("E_DEEP_INTERSECT_CIRCULAR_REFERENCE") := by
  refine ⟨?_, ?_, ?_, ?_, by rfl, by rfl, by rfl⟩
  · intro fuel fv st p q seen h
    simp only [intersectObject, hasSeen, h]
  · intro fuel fv st p q ea eb seen h
    simp only [intersectArray, hasSeen, h]
  · intro fuel fv st p q v seen h
    simp only [intersectObject, hasSeen, h]
  · intro fuel fv st p q ea eb v seen h
    simp only [intersectArray, hasSeen, h]

/-- Witness for C4's universal parts at a concrete in-progress and a
concrete cached pair. -/
theorem C4_intersect_cycle_error_witness :
    iSeenGet [((0, 1), .working)] 0 1 = some .working
    ∧ intersectObject 1 noFv (⟨[], []⟩ : St) 0 1 [((0, 1), .working)]
        = some (.error .circularReference)
    ∧ iSeenGet [((0, 1), .done (nV 9))] 0 1 = some (.done (nV 9))
    ∧ intersectArray 1 noFv (⟨[], []⟩ : St) 0 [] 1 [] [((0, 1), .done (nV 9))]
        = some (.ok (⟨[], []⟩, [((0, 1), .done (nV 9))], nV 9)) := by
  refine ⟨by rfl, ?_, by rfl, ?_⟩
  · exact C4_intersect_cycle_error.1 0 noFv ⟨[], []⟩ 0 1 _ (by rfl)
  · exact C4_intersect_cycle_error.2.2.2.1 0 noFv ⟨[], []⟩ 0 1 [] [] (nV 9) _ (by rfl)

/-! ## List lemmas for the dedup characterization and array clones -/

/-- Writing back the element already stored leaves a list unchanged. -/
theorem list_set_self {α : Type} : ∀ (l : List α) (i : Nat) (x : α),
    l[i]? = some x → l.set i x = l := by
  intro l
  induction l with
  | nil => intro i x h; simp at h
  | cons a rest ih =>
    intro i x h
    cases i with
    | zero => simp at h; simp [List.set, h]
    | succ j => simp at h; simp [List.set, ih j x h]

/-- Setting the appended slot of `l ++ [a]` replaces that single element. -/
theorem list_set_concat {α : Type} : ∀ (l : List α) (a b : α),
    (l ++ [a]).set l.length b = l ++ [b] := by
  intro l
  induction l with
  | nil => intro a b; rfl
  | cons x rest ih => intro a b; simp [List.set, ih]

/-- The two walks of `dedupFirst.go` agree whenever their seen-sets agree on
every element of the list. -/
theorem dedupFirst_go_congr : ∀ (l : List Value) (s t : List Value),
    (∀ x ∈ l, (x ∈ s ↔ x ∈ t)) → dedupFirst.go s l = dedupFirst.go t l := by
  intro l
  induction l with
  | nil => intro s t _; rfl
  | cons v rest ih =>
    intro s t hst
    have hv := hst v (by simp)
    by_cases hs : v ∈ s
    · have ht : v ∈ t := hv.mp hs
      simp only [dedupFirst.go, if_pos hs, if_pos ht]
      exact ih s t (fun x hx => hst x (by simp [hx]))
    · have ht : v ∉ t := fun h => hs (hv.mpr h)
      simp only [dedupFirst.go, if_neg hs, if_neg ht]
      refine congrArg (v :: ·) (ih (v :: s) (v :: t) ?_)
      intro x hx
      simp only [List.mem_cons]
      exact or_congr Iff.rfl (hst x (by simp [hx]))

/-- Elements already seen can be dropped from the list without changing the
walk. -/
theorem dedupFirst_go_filter_seen : ∀ (l : List Value) (s : List Value) (v : Value),
    v ∈ s → dedupFirst.go s l = dedupFirst.go s (l.filter (fun w => w ≠ v)) := by
  intro l
  induction l with
  | nil => intro s v _; rfl
  | cons w rest ih =>
    intro s v hv
    by_cases hwv : w = v
    · subst hwv
      rw [List.filter_cons, if_neg (by simp)]
      simp only [dedupFirst.go, if_pos hv]
      exact ih s w hv
    · rw [List.filter_cons, if_pos (by simp [hwv])]
      by_cases hws : w ∈ s
      · simp only [dedupFirst.go, if_pos hws]
        exact ih s v hv
      · simp only [dedupFirst.go, if_neg hws]
        exact congrArg (w :: ·) (ih (w :: s) v (by simp [hv]))

/-- The first-occurrence law of `[...new Set(list)]`: the head is kept and
every later duplicate of it disappears. -/
theorem dedupFirst_cons (v : Value) (l : List Value) :
    dedupFirst (v :: l) = v :: dedupFirst (l.filter (fun w => w ≠ v)) := by
  show dedupFirst.go [] (v :: l) = v :: dedupFirst.go [] (l.filter (fun w => w ≠ v))
  rw [show dedupFirst.go [] (v :: l) = v :: dedupFirst.go [v] l from by
    simp only [dedupFirst.go]
    rw [if_neg (List.not_mem_nil v)]]
  refine congrArg (v :: ·) ?_
  rw [dedupFirst_go_filter_seen l [v] v (by simp)]
  refine dedupFirst_go_congr _ [v] [] ?_
  intro x hx
  simp only [List.mem_filter, decide_eq_true_eq] at hx
  constructor
  · intro hxv
    simp only [List.mem_singleton] at hxv
    exact absurd hxv hx.2
  · intro hfalse
    exact absurd hfalse (List.not_mem_nil x)

/-- Membership in the walk: kept iff present and not yet seen. -/
theorem dedupFirst_go_mem : ∀ (l : List Value) (s : List Value) (x : Value),
    x ∈ dedupFirst.go s l ↔ (x ∈ l ∧ x ∉ s) := by
  intro l
  induction l with
  | nil => intro s x; simp [dedupFirst.go]
  | cons v rest ih =>
    intro s x
    by_cases hv : v ∈ s
    · simp only [dedupFirst.go, if_pos hv, ih, List.mem_cons]
      constructor
      · rintro ⟨h1, h2⟩; exact ⟨Or.inr h1, h2⟩
      · rintro ⟨h1 | h1, h2⟩
        · subst h1; exact absurd hv h2
        · exact ⟨h1, h2⟩
    · simp only [dedupFirst.go, if_neg hv, List.mem_cons, ih]
      constructor
      · rintro (h | ⟨h1, h2⟩)
        · subst h; exact ⟨Or.inl rfl, hv⟩
        · simp only [List.mem_cons, not_or] at h2
          exact ⟨Or.inr h1, h2.2⟩
      · rintro ⟨h1 | h1, h2⟩
        · subst h1; exact Or.inl rfl
        · by_cases hxv : x = v
          · subst hxv; exact Or.inl rfl
          · exact Or.inr ⟨h1, by simp [hxv, h2]⟩

/-- The deduplicated list has the same members as the original. -/
theorem dedupFirst_mem (l : List Value) (x : Value) :
    x ∈ dedupFirst l ↔ x ∈ l := by
  show x ∈ dedupFirst.go [] l ↔ x ∈ l
  simp [dedupFirst_go_mem]

/-- The walk never repeats a value. -/
theorem dedupFirst_go_nodup : ∀ (l : List Value) (s : List Value),
    (dedupFirst.go s l).Nodup := by
  intro l
  induction l with
  | nil => intro s; simp [dedupFirst.go]
  | cons v rest ih =>
    intro s
    by_cases hv : v ∈ s
    · simp only [dedupFirst.go, if_pos hv]; exact ih s
    · simp only [dedupFirst.go, if_neg hv, List.nodup_cons]
      refine ⟨?_, ih (v :: s)⟩
      intro hmem
      exact ((dedupFirst_go_mem rest (v :: s) v).mp hmem).2 (by simp)

/-- The deduplicated list is duplicate-free. -/
theorem dedupFirst_nodup (l : List Value) : (dedupFirst l).Nodup :=
  dedupFirst_go_nodup l []

/-- The walk is an order-preserving sublist of its input. -/
theorem dedupFirst_go_sublist : ∀ (l : List Value) (s : List Value),
    (dedupFirst.go s l).Sublist l := by
  intro l
  induction l with
  | nil => intro s; simp [dedupFirst.go]
  | cons v rest ih =>
    intro s
    by_cases hv : v ∈ s
    · simp only [dedupFirst.go, if_pos hv]
      exact (ih s).trans (List.sublist_cons_self v rest)
    · simp only [dedupFirst.go, if_neg hv]
      exact (ih (v :: s)).cons₂ v

/-- Order preservation: the deduplicated list is a sublist of the input. -/
theorem dedupFirst_sublist (l : List Value) : (dedupFirst l).Sublist l :=
  dedupFirst_go_sublist l []

/-- Is the value a heap reference (a composite). -/
def isRefVal : Value → Bool
  | .ref _ => true
  | _ => false

/-- Sequential overwrite of list slots from position `i`, the effect of the
element loop of `cloneArray` on the clone cell. -/
def setSeq (cur : List Value) (i : Nat) : List Value → List Value
  | [] => cur
  | e :: rest => setSeq (cur.set i e) (i + 1) rest

/-- Overwriting all of a just-allocated slot list rebuilds exactly the
element list. -/
theorem setSeq_spec : ∀ (l cur : List Value) (i : Nat),
    cur.length = i + l.length → setSeq cur i l = cur.take i ++ l := by
  intro l
  induction l with
  | nil =>
    intro cur i h
    simp only [setSeq, List.append_nil]
    simp only [List.length_nil, Nat.add_zero] at h
    rw [show i = cur.length from h.symm, List.take_length]
  | cons e rest ih =>
    intro cur i h
    simp only [List.length_cons] at h
    simp only [setSeq]
    rw [ih (cur.set i e) (i + 1) (by simp only [List.length_set]; omega)]
    have hlt : i < cur.length := by omega
    rw [List.take_succ]
    have h1 : (cur.set i e).take i = cur.take i := by
      rw [List.set_take]
      exact List.set_eq_of_length_le (by simp only [List.length_take]; omega)
    have h2 : (cur.set i e)[i]? = some e := by
      simp [List.getElem?_set_self', hlt]
    rw [h1, h2]
    simp

/-- Atomic values (non-references) clone to themselves without touching the
state or the memo. -/
theorem deepClone_atomic (fuel : Nat) (opts : CloneOptions) (st : St)
    (seen : CloneSeen) (v : Value) (h : isRefVal v = false) :
    deepClone (fuel + 1) opts st seen v = some (st, seen, v) := by
  cases v with
  | prim p => simp [deepClone]
  | func id => simp [deepClone]
  | ref r => simp [isRefVal] at h

/-- The element loop of `cloneArray` on an all-atomic element list writes
the elements into the clone cell and changes nothing else. -/
theorem cloneArrayElems_atomic : ∀ (elems : List Value) (fuel : Nat)
    (opts : CloneOptions) (st : St) (seen : CloneSeen) (c i : Nat)
    (cur : List Value) (st1 : St) (seen1 : CloneSeen),
    (∀ v ∈ elems, isRefVal v = false) →
    st.heap[c]? = some (.arr cur) →
    cloneArrayElems fuel opts st seen c i elems = some (st1, seen1) →
    st1 = ⟨st.heap.set c (.arr (setSeq cur i elems)), st.calls⟩ ∧ seen1 = seen := by
  intro elems
  induction elems with
  | nil =>
    intro fuel opts st seen c i cur st1 seen1 _ hc h
    cases fuel with
    | zero => simp [cloneArrayElems] at h
    | succ f =>
      simp only [cloneArrayElems, Option.some.injEq, Prod.mk.injEq] at h
      obtain ⟨h1, h2⟩ := h
      subst h1; subst h2
      simp only [setSeq]
      rw [list_set_self st.heap c (.arr cur) hc]
      exact ⟨rfl, trivial⟩
  | cons e rest ih =>
    intro fuel opts st seen c i cur st1 seen1 hatomic hc h
    cases fuel with
    | zero => simp [cloneArrayElems] at h
    | succ f =>
      cases f with
      | zero => simp [cloneArrayElems, deepClone] at h
      | succ g =>
        simp only [cloneArrayElems,
          deepClone_atomic g opts st seen e (hatomic e (by simp))] at h
        rw [show arrWriteAt st c i e = writeSt st c (.arr (cur.set i e)) from by
          unfold arrWriteAt; rw [hc]] at h
        have hlt : c < st.heap.length := by
          by_contra hge
          rw [List.getElem?_eq_none (by omega)] at hc
          exact absurd hc (by simp)
        have hc2 : (writeSt st c (.arr (cur.set i e))).heap[c]?
            = some (.arr (cur.set i e)) := by
          simp [writeSt, List.getElem?_set_self', hlt]
        obtain ⟨h1, h2⟩ := ih (g + 1) opts (writeSt st c (.arr (cur.set i e))) seen c
          (i + 1) (cur.set i e) st1 seen1 (fun v hv => hatomic v (by simp [hv])) hc2 h
        refine ⟨?_, h2⟩
        rw [h1]
        simp only [writeSt, List.set_set]
        rfl

/-! ## C5 — array merge is the first-occurrence deduplicated concatenation -/

/-- The binary fold step on two distinct array references allocates exactly
the deduplicated concatenation. -/
theorem mergeArray_fold_eq (fuel : Nat) (st : St) (p q : Nat)
    (ea eb : List Value) (seen : List Nat)
    (hp : st.heap[p]? = some (.arr ea)) (hq : st.heap[q]? = some (.arr eb))
    (hpq : p ≠ q) :
    mergeAandB (fuel + 2) st (.ref p) (.ref q) seen
      = some (⟨st.heap ++ [.arr (dedupFirst (ea ++ eb))], st.calls⟩, seen,
          .ref st.heap.length) := by
  simp only [mergeAandB]
  rw [if_neg (by simp [undefV]), if_neg (by simp [hpq])]
  rw [hp, hq]
  simp [mergeArray, allocSt]

/-- Array fixture `[2,3,4]` at 0, `[1,2,3]` at 1. -/
def exOrderSt : St :=
  ⟨[.arr [nV 2, nV 3, nV 4], .arr [nV 1, nV 2, nV 3]], []⟩

/-- Array fixture `[1,1,2,2]` at 0, `[2,2,3,3]` at 1. -/
def exDupsSt : St :=
  ⟨[.arr [nV 1, nV 1, nV 2, nV 2], .arr [nV 2, nV 2, nV 3, nV 3]], []⟩

/-- C5 counterexample: on the identical array reference, the `Object.is`
identity rule fires before the array union, so `merge(a, a)` with
`a = [1,1,2]` returns a fresh copy of `[1,1,2]` — not the deduplicated
ordered union `[1,2]` the claim promises for every pair of arrays. -/
theorem C5_counterexample_identical_reference :
    merge 20 exDupArrSt (.ref 0) (.ref 0) []
        = some (⟨[.arr [nV 1, nV 1, nV 2], .arr [nV 1, nV 1, nV 2]], []⟩, .ref 1)
    ∧ dedupFirst ([nV 1, nV 1, nV 2] ++ [nV 1, nV 1, nV 2]) = [nV 1, nV 2]
    ∧ [nV 1, nV 1, nV 2] ≠ [nV 1, nV 2] :=
  ⟨by rfl, by rfl, by decide⟩

/-- C5 (amended): for two *distinct* array references, the fold step
produces exactly `dedupFirst (a ++ b)` — the concatenation with duplicate
values (same-value identity) removed at first occurrence — and the public
`merge` returns a fresh array holding that list whenever the elements are
atomic; the claim's two examples compute as stated; and `dedupFirst` really
is the order-preserving first-occurrence deduplication (head law, no
duplicates, same members, order-preserving sublist). -/
theorem C5_merge_array_dedup :
    (∀ (fuel : Nat) (st : St) (p q : Nat) (ea eb : List Value) (seen : List Nat),
        st.heap[p]? = some (.arr ea) → st.heap[q]? = some (.arr eb) → p ≠ q →
        mergeAandB (fuel + 2) st (.ref p) (.ref q) seen
          = some (⟨st.heap ++ [.arr (dedupFirst (ea ++ eb))], st.calls⟩, seen,
              .ref st.heap.length))
    ∧ (∀ (fuel : Nat) (st : St) (p q : Nat) (ea eb : List Value) (st1 : St) (v : Value),
        st.heap[p]? = some (.arr ea) → st.heap[q]? = some (.arr eb) → p ≠ q →
        (∀ w ∈ ea ++ eb, isRefVal w = false) →
        merge (fuel + 2) st (.ref p) (.ref q) [] = some (st1, v) →
        st1 = ⟨st.heap ++ [.arr (dedupFirst (ea ++ eb)), .arr (dedupFirst (ea ++ eb))],
                st.calls⟩
          ∧ v = .ref (st.heap.length + 1))
    ∧ merge 20 exOrderSt (.ref 0) (.ref 1) []
        = some (⟨[.arr [nV 2, nV 3, nV 4], .arr [nV 1, nV 2, nV 3],
                  .arr [nV 2, nV 3, nV 4, nV 1], .arr [nV 2, nV 3, nV 4, nV 1]], []⟩,
            .ref 3)
    ∧ merge 20 exDupsSt (.ref 0) (.ref 1) []
        = some (⟨[.arr [nV 1, nV 1, nV 2, nV 2], .arr [nV 2, nV 2, nV 3, nV 3],
                  .arr [nV 1, nV 2, nV 3], .arr [nV 1, nV 2, nV 3]], []⟩,
            .ref 3)
    ∧ (∀ (v : Value) (l : List Value),
        dedupFirst (v :: l) = v :: dedupFirst (l.filter (fun w => w ≠ v)))
    ∧ (∀ l : List Value, (dedupFirst l).Nodup)
    ∧ (∀ (l : List Value) (x : Value), x ∈ dedupFirst l ↔ x ∈ l)
    ∧ (∀ l : List Value, (dedupFirst l).Sublist l) := by
  refine ⟨mergeArray_fold_eq, ?_, by rfl, by rfl, dedupFirst_cons, dedupFirst_nodup,
    dedupFirst_mem, dedupFirst_sublist⟩
  intro fuel st p q ea eb st1 v hp hq hpq hatom h
  simp only [merge] at h
  rw [mergeArray_fold_eq fuel st p q ea eb [] hp hq hpq] at h
  simp only [cloneEntry] at h
  set dd := dedupFirst (ea ++ eb) with hdd
  set stA : St := ⟨st.heap ++ [.arr dd], st.calls⟩ with hstA
  have hlook : stA.heap[st.heap.length]? = some (.arr dd) :=
    List.getElem?_concat_length st.heap (.arr dd)
  simp only [deepClone, hlook] at h
  simp only [cloneArray, cloneSeenGet, allocSt] at h
  cases hrun : cloneArrayElems fuel ⟨true, true⟩
      (⟨stA.heap ++ [Obj.arr (List.replicate dd.length undefV)], stA.calls⟩ : St)
      [(st.heap.length, stA.heap.length)] stA.heap.length 0 dd with
  | none => rw [hrun] at h; simp at h
  | some r =>
    obtain ⟨st2, seen2⟩ := r
    rw [hrun] at h
    simp only [Option.some.injEq, Prod.mk.injEq] at h
    obtain ⟨h1, h2⟩ := h
    have hatomDd : ∀ w ∈ dd, isRefVal w = false := by
      intro w hw
      exact hatom w ((dedupFirst_mem (ea ++ eb) w).mp hw)
    have hcB : (⟨stA.heap ++ [Obj.arr (List.replicate dd.length undefV)], stA.calls⟩ : St).heap[stA.heap.length]?
        = some (Obj.arr (List.replicate dd.length undefV)) :=
      List.getElem?_concat_length stA.heap _
    obtain ⟨hst2, hseen2⟩ := cloneArrayElems_atomic dd fuel ⟨true, true⟩
      (⟨stA.heap ++ [Obj.arr (List.replicate dd.length undefV)], stA.calls⟩ : St)
      [(st.heap.length, stA.heap.length)] stA.heap.length 0
      (List.replicate dd.length undefV) st2 seen2 hatomDd hcB hrun
    have hlen : stA.heap.length = st.heap.length + 1 := by
      simp [hstA]
    constructor
    · rw [← h1, hst2]
      have : (stA.heap ++ [Obj.arr (List.replicate dd.length undefV)]).set stA.heap.length
          (Obj.arr (setSeq (List.replicate dd.length undefV) 0 dd))
          = stA.heap ++ [Obj.arr (setSeq (List.replicate dd.length undefV) 0 dd)] :=
        list_set_concat stA.heap _ _
      rw [this, setSeq_spec dd (List.replicate dd.length undefV) 0 (by simp)]
      simp [hstA]
    · rw [← h2, hlen]

/-- Witness for C5's universal parts at the claim's own example. -/
theorem C5_merge_array_dedup_witness :
    exOrderSt.heap[0]? = some (.arr [nV 2, nV 3, nV 4])
    ∧ exOrderSt.heap[1]? = some (.arr [nV 1, nV 2, nV 3])
    ∧ (0 : Nat) ≠ 1
    ∧ mergeAandB 2 exOrderSt (.ref 0) (.ref 1) []
        = some (⟨exOrderSt.heap
              ++ [.arr (dedupFirst ([nV 2, nV 3, nV 4] ++ [nV 1, nV 2, nV 3]))],
            exOrderSt.calls⟩, [], .ref 2) :=
  ⟨rfl, rfl, by decide,
    C5_merge_array_dedup.1 0 exOrderSt 0 1 _ _ [] rfl rfl (by decide)⟩

/-! ## C9 — non-configurable non-writable collisions in assign -/

/-- Fixture: `a.foo = 1` non-writable / non-configurable / non-enumerable
at 0, `b = { foo: 2 }` at 1 (the repository's "Retains" test). -/
def exNcnwSt : St :=
  ⟨[.record .objectProto [(kS ("foo"), .mkData (nV 1) false false false)],
    .record .objectProto [(kS ("foo"), dD (nV 2))]], []⟩

/-- C9 counterexample: `a.k` is non-configurable and non-writable, yet
because both `a.k` and `b.k` hold plain records, the recursion branch runs
*before* the flag checks and mutates the record `a.k` points to — its
nested contents gain the key `y`, so the property is not "left untouched —
its value, its nested contents, and its flags unchanged". -/
theorem C9_counterexample_nested_mutation :
    assign 30 exNestedNcnwSt (.ref 1) [.ref 3]
        = some (⟨[.record .objectProto [(kS ("x"), dD (nV 1)), (kS ("y"), dD (nV 2))],
                  .record .objectProto [(kS ("k"), .mkData (.ref 0) false false false)],
                  .record .objectProto [(kS ("y"), dD (nV 2))],
                  .record .objectProto [(kS ("k"), dD (.ref 2))]], []⟩, .ref 1)
    ∧ exNestedNcnwSt.heap[0]? = some (.record .objectProto [(kS ("x"), dD (nV 1))])
    ∧ ([(kS ("x"), dD (nV 1)), (kS ("y"), dD (nV 2))] : List (Key × Descriptor))
        ≠ [(kS ("x"), dD (nV 1))] :=
  ⟨by rfl, by rfl, by decide⟩

/-- C9 (amended): take a key owned by both sides whose target descriptor is
non-configurable and (for a data property) non-writable.  Unless both
values are plain records, the key's processing step is a complete no-op —
the state is passed through untouched and no error of any kind arises
(first conjunct).  When both values are plain records the step instead
delegates to the in-place record recursion on the two values, still without
touching the colliding property's own descriptor at this step (second
conjunct); the no-error contract holds in both shapes. -/
theorem C9_assign_ncnw_silent :
    (∀ (fuel : Nat) (st : St) (p q : Nat) (k : Key) (rest : List Key)
        (da : Descriptor),
        getOwnPropertyDescriptor st.heap p k = some da →
        da.configurable = some false →
        (da.value.isSome = true → da.writable = some false) →
        (∀ db, getOwnPropertyDescriptor st.heap q k = some db →
          ¬(da.value.isSome = true ∧ db.value.isSome = true
            ∧ isRecordVal st.heap (jsField da.value) = true
            ∧ isRecordVal st.heap (jsField db.value) = true)) →
        assignObjectKeys (fuel + 1) st p q (k :: rest)
          = assignObjectKeys fuel st p q rest)
    ∧ (∀ (fuel : Nat) (st : St) (p q : Nat) (k : Key) (rest : List Key)
          (da db : Descriptor) (ra rb : Nat),
        getOwnPropertyDescriptor st.heap p k = some da →
        getOwnPropertyDescriptor st.heap q k = some db →
        da.value = some (.ref ra) → db.value = some (.ref rb) →
        isRecordVal st.heap (.ref ra) = true →
        isRecordVal st.heap (.ref rb) = true →
        assignObjectKeys (fuel + 1) st p q (k :: rest)
          = (assignObject fuel st ra rb).bind
              (fun r => assignObjectKeys fuel r.1 p q rest)) := by
  constructor
  · intro fuel st p q k rest da hda hconf hwrit hnot
    have hhas : hasOwnProp st.heap p k = true := by
      simp [hasOwnProp, hda]
    simp only [assignObjectKeys, hhas, hda]
    cases hdb : getOwnPropertyDescriptor st.heap q k with
    | none => simp
    | some db =>
      have hcond := hnot db hdb
      simp only [if_true]
      rw [if_neg ?_]
      · rw [if_neg (by simp [Option.getD, hconf])]
        have : ¬(da.value.isSome = true ∧ da.writable.getD false = true) := by
          rintro ⟨h1, h2⟩
          rw [hwrit h1] at h2
          simp [Option.getD] at h2
        rw [if_neg (by
          intro hh
          simp only [Bool.and_eq_true] at hh
          exact this ⟨hh.1, hh.2⟩)]
      · intro hh
        simp only [Bool.and_eq_true] at hh
        exact hcond ⟨hh.1.1.1.2, hh.1.1.2, hh.1.2, hh.2⟩
  · intro fuel st p q k rest da db ra rb hda hdb hva hvb hra hrb
    have hhas : hasOwnProp st.heap p k = true := by
      simp [hasOwnProp, hda]
    simp only [assignObjectKeys, hhas, hda, hdb, if_true, Option.map_some',
      Option.getD_some, hva, hvb, Option.isSome_some, jsField, Bool.true_and,
      Bool.and_true]
    rw [if_pos (by simp [hra, hrb])]
    cases assignObject fuel st ra rb with
    | none => simp
    | some r => simp

/-- Witness for C9 at the repository's "Retains non-writable" fixture: the
collision step is skipped outright. -/
theorem C9_assign_ncnw_silent_witness :
    getOwnPropertyDescriptor exNcnwSt.heap 0 (kS ("foo"))
        = some (.mkData (nV 1) false false false)
    ∧ assignObjectKeys 2 exNcnwSt 0 1 [kS ("foo")] = assignObjectKeys 1 exNcnwSt 0 1 [] := by
  refine ⟨by rfl, ?_⟩
  refine C9_assign_ncnw_silent.1 1 exNcnwSt 0 1 (kS ("foo")) []
    (.mkData (nV 1) false false false) (by rfl) (by rfl) (fun _ => rfl) ?_
  intro db hdb
  rw [show getOwnPropertyDescriptor exNcnwSt.heap 1 (kS ("foo")) = some (dD (nV 2))
    from rfl] at hdb
  obtain rfl := (Option.some.inj hdb).symm
  decide

/-! ## Heap-preservation infrastructure

The non-mutating engines only allocate fresh cells and fill cells they have
just allocated; these predicates state that and compose along the
recursion. -/

/-- The heap only grew and every pre-existing cell is unchanged. -/
def HeapExt (h h1 : Heap) : Prop :=
  h.length ≤ h1.length ∧ ∀ r, r < h.length → h1[r]? = h[r]?

/-- The heap only grew and every pre-existing cell other than `out` (the one
output cell a loop is filling) is unchanged. -/
def HeapExtAt (out : Nat) (h h1 : Heap) : Prop :=
  h.length ≤ h1.length ∧ ∀ r, r < h.length → r ≠ out → h1[r]? = h[r]?

/-- If the cell `out` holds a record, it still holds a record with the same
prototype afterwards. -/
def RecProtoKeep (out : Nat) (h h1 : Heap) : Prop :=
  ∀ proto props, h[out]? = some (.record proto props) →
    ∃ props1, h1[out]? = some (.record proto props1)

theorem HeapExt.refl (h : Heap) : HeapExt h h :=
  ⟨Nat.le_refl _, fun _ _ => Eq.refl _⟩

theorem HeapExt.transE {h1 h2 h3 : Heap} (a : HeapExt h1 h2) (b : HeapExt h2 h3) :
    HeapExt h1 h3 :=
  ⟨Nat.le_trans a.1 b.1, fun r hr => (b.2 r (Nat.lt_of_lt_of_le hr a.1)).trans (a.2 r hr)⟩

theorem HeapExt.toAt {h h1 : Heap} (out : Nat) (a : HeapExt h h1) :
    HeapExtAt out h h1 :=
  ⟨a.1, fun r hr _ => a.2 r hr⟩

theorem HeapExtAt.reflAt (out : Nat) (h : Heap) : HeapExtAt out h h :=
  ⟨Nat.le_refl _, fun _ _ _ => Eq.refl _⟩

theorem HeapExtAt.transAt {out : Nat} {h1 h2 h3 : Heap} (a : HeapExtAt out h1 h2)
    (b : HeapExtAt out h2 h3) : HeapExtAt out h1 h3 :=
  ⟨Nat.le_trans a.1 b.1,
   fun r hr hne => (b.2 r (Nat.lt_of_lt_of_le hr a.1) hne).trans (a.2 r hr hne)⟩

/-- A preserved lookup: an extension keeps every old cell readable. -/
theorem HeapExt.look {h h1 : Heap} (a : HeapExt h h1) {r : Nat} {o : Obj}
    (hr : h[r]? = some o) : h1[r]? = some o := by
  have hlt : r < h.length := by
    by_contra hge
    rw [List.getElem?_eq_none (by omega)] at hr
    exact absurd hr (by simp)
  rw [a.2 r hlt, hr]

theorem allocSt_heapExt (st : St) (o : Obj) : HeapExt st.heap (allocSt st o).1.heap := by
  refine ⟨by simp [allocSt], fun r hr => ?_⟩
  simp only [allocSt]
  exact List.getElem?_append_left hr

theorem writeSt_heapExtAt (st : St) (out : Nat) (o : Obj) :
    HeapExtAt out st.heap (writeSt st out o).heap := by
  refine ⟨by simp [writeSt], fun r hr hne => ?_⟩
  simp only [writeSt]
  rw [List.getElem?_set_ne (fun hh => hne hh.symm)]

theorem writeSt_calls (st : St) (out : Nat) (o : Obj) :
    (writeSt st out o).calls = st.calls := by
  simp [writeSt]

theorem definePropertySt_heapExtAt (st : St) (out : Nat) (k : Key) (d : Descriptor) :
    HeapExtAt out st.heap (definePropertySt st out k d).heap := by
  unfold definePropertySt
  split
  · split
    · exact writeSt_heapExtAt st out _
    · exact writeSt_heapExtAt st out _
  · exact (HeapExt.refl st.heap).toAt out

theorem definePropertySt_calls (st : St) (out : Nat) (k : Key) (d : Descriptor) :
    (definePropertySt st out k d).calls = st.calls := by
  unfold definePropertySt
  split
  · split
    · exact writeSt_calls st out _
    · exact writeSt_calls st out _
  · rfl

theorem definePropertySt_protoKeep (st : St) (out : Nat) (k : Key) (d : Descriptor) :
    RecProtoKeep out st.heap (definePropertySt st out k d).heap := by
  intro proto props hl
  have hlt : out < st.heap.length := by
    by_contra hge
    rw [List.getElem?_eq_none (by omega)] at hl
    exact absurd hl (by simp)
  unfold definePropertySt
  rw [hl]
  by_cases hk : propsHas props k
  · exact ⟨propsReplace props k (normalizeDescriptor d),
      by simp [hk, writeSt, List.getElem?_set_self', hlt]⟩
  · exact ⟨props ++ [(k, normalizeDescriptor d)],
      by simp [hk, writeSt, List.getElem?_set_self', hlt]⟩

theorem arrWriteAt_heapExtAt (st : St) (c i : Nat) (v : Value) :
    HeapExtAt c st.heap (arrWriteAt st c i v).heap := by
  unfold arrWriteAt
  split
  · exact writeSt_heapExtAt st c _
  · exact (HeapExt.refl st.heap).toAt c

theorem arrWriteAt_calls (st : St) (c i : Nat) (v : Value) :
    (arrWriteAt st c i v).calls = st.calls := by
  unfold arrWriteAt
  split
  · exact writeSt_calls st c _
  · rfl

theorem setAddOn_heapExtAt (st : St) (c : Nat) (v : Value) :
    HeapExtAt c st.heap (setAddOn st c v).heap := by
  unfold setAddOn
  split
  · exact writeSt_heapExtAt st c _
  · exact (HeapExt.refl st.heap).toAt c

theorem setAddOn_calls (st : St) (c : Nat) (v : Value) :
    (setAddOn st c v).calls = st.calls := by
  unfold setAddOn
  split
  · exact writeSt_calls st c _
  · rfl

theorem mapSetOn_heapExtAt (st : St) (c : Nat) (k v : Value) :
    HeapExtAt c st.heap (mapSetOn st c k v).heap := by
  unfold mapSetOn
  split
  · exact writeSt_heapExtAt st c _
  · exact (HeapExt.refl st.heap).toAt c

theorem mapSetOn_calls (st : St) (c : Nat) (k v : Value) :
    (mapSetOn st c k v).calls = st.calls := by
  unfold mapSetOn
  split
  · exact writeSt_calls st c _
  · rfl

theorem RecProtoKeep.reflKeep (out : Nat) (h : Heap) : RecProtoKeep out h h :=
  fun _ props hl => ⟨props, hl⟩

theorem RecProtoKeep.transKeep {out : Nat} {h1 h2 h3 : Heap} (a : RecProtoKeep out h1 h2)
    (b : RecProtoKeep out h2 h3) : RecProtoKeep out h1 h3 := by
  intro proto props hl
  obtain ⟨props1, hl1⟩ := a proto props hl
  exact b proto props1 hl1

/-- An extension-except-at plus a record at `out` below the old length keeps
the record (an old cell other than the written one is untouched; at `out`
nothing is known, hence the companion `RecProtoKeep`).  This variant: a full
extension keeps the record at `out` verbatim. -/
theorem HeapExt.protoKeep {h h1 : Heap} (a : HeapExt h h1) (out : Nat) :
    RecProtoKeep out h h1 :=
  fun proto props hl => ⟨props, a.look hl⟩

/-- The a-only copy loop of `mergeObject` is calls-preserving, touches only
`out`, and keeps `out`'s prototype. -/
theorem mergeCopyUniqueA_spec (out p q : Nat) : ∀ (keys : List Key) (st : St),
    (mergeCopyUniqueA st out p q keys).calls = st.calls
    ∧ HeapExtAt out st.heap (mergeCopyUniqueA st out p q keys).heap
    ∧ RecProtoKeep out st.heap (mergeCopyUniqueA st out p q keys).heap := by
  intro keys
  induction keys with
  | nil =>
    intro st
    exact ⟨Eq.refl _, (HeapExt.refl st.heap).toAt out, RecProtoKeep.reflKeep out st.heap⟩
  | cons k rest ih =>
    intro st
    simp only [mergeCopyUniqueA]
    split
    · exact ih st
    · split
      · refine ⟨(ih _).1.trans (definePropertySt_calls st out k _), ?_, ?_⟩
        · exact (definePropertySt_heapExtAt st out k _).transAt (ih _).2.1
        · exact (definePropertySt_protoKeep st out k _).transKeep (ih _).2.2
      · exact ih st

theorem allocSt_calls (st : St) (o : Obj) : (allocSt st o).1.calls = st.calls := by
  simp [allocSt]

/-- Composing a growth step with a loop that only writes a freshly allocated
cell gives a clean extension of the original heap. -/
theorem extAt_out_fresh {h0 h1 h2 : Heap} (out : Nat) (hout : h0.length ≤ out)
    (a : HeapExt h0 h1) (b : HeapExtAt out h1 h2) : HeapExt h0 h2 := by
  refine ⟨Nat.le_trans a.1 b.1, fun r hr => ?_⟩
  rw [b.2 r (Nat.lt_of_lt_of_le hr a.1) (by omega), a.2 r hr]

/-- Preservation master for the merge family: every function leaves all
pre-existing cells untouched (except the loop functions, which also write
the output cell they were given), never shrinks the heap, and never touches
the getter-call log. -/
theorem mergePreservation : ∀ fuel : Nat,
    (∀ st a b seen st1 seen1 v, mergeAandB fuel st a b seen = some (st1, seen1, v) →
      HeapExt st.heap st1.heap ∧ st1.calls = st.calls)
    ∧ (∀ st ea eb seen st1 seen1 v, mergeArray fuel st ea eb seen = some (st1, seen1, v) →
      HeapExt st.heap st1.heap ∧ st1.calls = st.calls)
    ∧ (∀ st ea eb seen st1 seen1 v, mergeSet fuel st ea eb seen = some (st1, seen1, v) →
      HeapExt st.heap st1.heap ∧ st1.calls = st.calls)
    ∧ (∀ st p ea q eb seen st1 seen1 v,
        mergeMap fuel st p ea q eb seen = some (st1, seen1, v) →
      HeapExt st.heap st1.heap ∧ st1.calls = st.calls)
    ∧ (∀ st out entries seen st1 seen1,
        mergeMapEntries fuel st out entries seen = some (st1, seen1) →
      HeapExtAt out st.heap st1.heap ∧ st1.calls = st.calls)
    ∧ (∀ st p q seen st1 seen1 v, mergeObject fuel st p q seen = some (st1, seen1, v) →
      HeapExt st.heap st1.heap ∧ st1.calls = st.calls)
    ∧ (∀ st out p q keys seen st1 seen1,
        mergeKeysFromB fuel st out p q keys seen = some (st1, seen1) →
      HeapExtAt out st.heap st1.heap ∧ st1.calls = st.calls
        ∧ RecProtoKeep out st.heap st1.heap)
    ∧ (∀ st da db seen st1 seen1 d, mergeDescriptor fuel st da db seen = some (st1, seen1, d) →
      HeapExt st.heap st1.heap ∧ st1.calls = st.calls) := by
  intro fuel
  induction fuel with
  | zero =>
    refine ⟨?_, ?_, ?_, ?_, ?_, ?_, ?_, ?_⟩ <;>
      intro st <;> intros <;> simp_all [mergeAandB, mergeArray, mergeSet, mergeMap,
        mergeMapEntries, mergeObject, mergeKeysFromB, mergeDescriptor]
  | succ fuel ih =>
    obtain ⟨ihA, ihArr, ihSet, ihMap, ihME, ihObj, ihKB, ihD⟩ := ih
    have hA : ∀ st a b seen st1 seen1 v,
        mergeAandB (fuel + 1) st a b seen = some (st1, seen1, v) →
        HeapExt st.heap st1.heap ∧ st1.calls = st.calls := by
      intro st a b seen st1 seen1 v h
      simp only [mergeAandB] at h
      split at h
      · obtain ⟨h1, h2, h3⟩ := by simpa using h
        subst h1; exact ⟨HeapExt.refl _, rfl⟩
      · split at h
        · obtain ⟨h1, h2, h3⟩ := by simpa using h
          subst h1; exact ⟨HeapExt.refl _, rfl⟩
        · split at h
          · split at h
            · exact ihArr _ _ _ _ _ _ _ h
            · exact ihObj _ _ _ _ _ _ _ h
            · exact ihSet _ _ _ _ _ _ _ h
            · exact ihMap _ _ _ _ _ _ _ _ _ h
            · obtain ⟨h1, h2, h3⟩ := by simpa using h
              subst h1; exact ⟨HeapExt.refl _, rfl⟩
          · obtain ⟨h1, h2, h3⟩ := by simpa using h
            subst h1; exact ⟨HeapExt.refl _, rfl⟩
    have hArr : ∀ st ea eb seen st1 seen1 v,
        mergeArray (fuel + 1) st ea eb seen = some (st1, seen1, v) →
        HeapExt st.heap st1.heap ∧ st1.calls = st.calls := by
      intro st ea eb seen st1 seen1 v h
      simp only [mergeArray] at h
      obtain ⟨h1, h2, h3⟩ := by simpa using h
      subst h1
      exact ⟨allocSt_heapExt st _, allocSt_calls st _⟩
    have hSet : ∀ st ea eb seen st1 seen1 v,
        mergeSet (fuel + 1) st ea eb seen = some (st1, seen1, v) →
        HeapExt st.heap st1.heap ∧ st1.calls = st.calls := by
      intro st ea eb seen st1 seen1 v h
      simp only [mergeSet] at h
      obtain ⟨h1, h2, h3⟩ := by simpa using h
      subst h1
      exact ⟨allocSt_heapExt st _, allocSt_calls st _⟩
    have hME : ∀ st out entries seen st1 seen1,
        mergeMapEntries (fuel + 1) st out entries seen = some (st1, seen1) →
        HeapExtAt out st.heap st1.heap ∧ st1.calls = st.calls := by
      intro st out entries seen st1 seen1 h
      simp only [mergeMapEntries] at h
      split at h
      · obtain ⟨h1, h2⟩ := by simpa using h
        subst h1; exact ⟨HeapExtAt.reflAt _ _, rfl⟩
      · rename_i k bv rest
        split at h
        · rename_i cur hcur
          split at h
          · rename_i av hav
            cases hmab : mergeAandB fuel st av bv seen with
            | none => rw [hmab] at h; exact absurd h (by simp)
            | some r =>
              obtain ⟨stm, seenm, m⟩ := r
              rw [hmab] at h
              have h2 : mergeMapEntries fuel (mapSetOn stm out k m) out rest seenm
                  = some (st1, seen1) := h
              obtain ⟨hm1, hm2⟩ := ihA _ _ _ _ _ _ _ hmab
              have hrec := ihME _ _ _ _ _ _ h2
              constructor
              · exact (hm1.toAt out).transAt
                  ((mapSetOn_heapExtAt stm out _ _).transAt hrec.1)
              · rw [hrec.2, mapSetOn_calls, hm2]
          · have hrec := ihME _ _ _ _ _ _ h
            constructor
            · exact (mapSetOn_heapExtAt st out _ _).transAt hrec.1
            · rw [hrec.2, mapSetOn_calls]
        · exact ihME _ _ _ _ _ _ h
    have hMap : ∀ st p ea q eb seen st1 seen1 v,
        mergeMap (fuel + 1) st p ea q eb seen = some (st1, seen1, v) →
        HeapExt st.heap st1.heap ∧ st1.calls = st.calls := by
      intro st p ea q eb seen st1 seen1 v h
      simp only [mergeMap] at h
      split at h
      · obtain ⟨h1, h2, h3⟩ := by simpa using h
        subst h1; exact ⟨HeapExt.refl _, rfl⟩
      · split at h
        all_goals
          first
          | exact Option.noConfusion h
          | (rename_i hr
             obtain ⟨h1, h2, h3⟩ := by simpa using h
             subst h1
             have hrec := ihME _ _ _ _ _ _ hr
             exact ⟨extAt_out_fresh st.heap.length (Nat.le_refl _)
               (allocSt_heapExt st _) hrec.1, by rw [hrec.2, allocSt_calls]⟩)
    have hKB : ∀ st out p q keys seen st1 seen1,
        mergeKeysFromB (fuel + 1) st out p q keys seen = some (st1, seen1) →
        HeapExtAt out st.heap st1.heap ∧ st1.calls = st.calls
          ∧ RecProtoKeep out st.heap st1.heap := by
      intro st out p q keys seen st1 seen1 h
      simp only [mergeKeysFromB] at h
      split at h
      · obtain ⟨h1, h2⟩ := by simpa using h
        subst h1; exact ⟨HeapExtAt.reflAt _ _, rfl, RecProtoKeep.reflKeep _ _⟩
      · rename_i k rest
        by_cases hown : hasOwnProp st.heap p k
        · rw [if_pos hown] at h
          cases hda : getOwnPropertyDescriptor st.heap p k with
          | none =>
            rw [hda] at h
            exact ihKB _ _ _ _ _ _ _ _ h
          | some da =>
            rw [hda] at h
            cases hdb : getOwnPropertyDescriptor st.heap q k with
            | none =>
              rw [hdb] at h
              exact ihKB _ _ _ _ _ _ _ _ h
            | some db =>
              rw [hdb] at h
              replace h : (match mergeDescriptor fuel st da db seen with
                  | none => none
                  | some (stm, seenm, dm) =>
                    mergeKeysFromB fuel (definePropertySt stm out k dm) out p q
                      rest seenm) = some (st1, seen1) := h
              cases hmd : mergeDescriptor fuel st da db seen with
              | none =>
                rw [hmd] at h
                exact absurd
                  (show (none : Option (St × List Nat)) = some (st1, seen1) from h)
                  (by simp)
              | some r =>
                obtain ⟨stm, seenm, dm⟩ := r
                rw [hmd] at h
                have h2 : mergeKeysFromB fuel (definePropertySt stm out k dm) out p q
                    rest seenm = some (st1, seen1) := h
                obtain ⟨hm1, hm2⟩ := ihD _ _ _ _ _ _ _ hmd
                have hrec := ihKB _ _ _ _ _ _ _ _ h2
                refine ⟨?_, ?_, ?_⟩
                · exact (hm1.toAt out).transAt
                    ((definePropertySt_heapExtAt stm out k dm).transAt hrec.1)
                · rw [hrec.2.1, definePropertySt_calls, hm2]
                · exact (hm1.protoKeep out).transKeep
                    ((definePropertySt_protoKeep stm out k dm).transKeep hrec.2.2)
        · rw [if_neg hown] at h
          cases hdb : getOwnPropertyDescriptor st.heap q k with
          | none =>
            rw [hdb] at h
            exact ihKB _ _ _ _ _ _ _ _ h
          | some db =>
            rw [hdb] at h
            have h2 : mergeKeysFromB fuel (definePropertySt st out k db) out p q
                rest seen = some (st1, seen1) := h
            have hrec := ihKB _ _ _ _ _ _ _ _ h2
            refine ⟨(definePropertySt_heapExtAt st out k db).transAt hrec.1, ?_, ?_⟩
            · rw [hrec.2.1, definePropertySt_calls]
            · exact (definePropertySt_protoKeep st out k db).transKeep hrec.2.2
    have hObj : ∀ st p q seen st1 seen1 v,
        mergeObject (fuel + 1) st p q seen = some (st1, seen1, v) →
        HeapExt st.heap st1.heap ∧ st1.calls = st.calls := by
      intro st p q seen st1 seen1 v h
      simp only [mergeObject] at h
      split at h
      · obtain ⟨h1, h2, h3⟩ := by simpa using h
        subst h1; exact ⟨HeapExt.refl _, rfl⟩
      · split at h
        all_goals
          first
          | exact Option.noConfusion h
          | (rename_i hr
             obtain ⟨h1, h2, h3⟩ := by simpa using h
             subst h1
             have hrec := ihKB _ _ _ _ _ _ _ _ hr
             refine ⟨?_, ?_⟩
             · refine extAt_out_fresh st.heap.length (Nat.le_refl _)
                 (allocSt_heapExt st (.record (protoOf st.heap p) [])) ?_
               exact ((mergeCopyUniqueA_spec _ _ _ _ _).2.1).transAt hrec.1
             · rw [hrec.2.1, (mergeCopyUniqueA_spec _ _ _ _ _).1, allocSt_calls])
    have hD : ∀ st da db seen st1 seen1 d,
        mergeDescriptor (fuel + 1) st da db seen = some (st1, seen1, d) →
        HeapExt st.heap st1.heap ∧ st1.calls = st.calls := by
      intro st da db seen st1 seen1 d h
      simp only [mergeDescriptor] at h
      split at h
      · split at h
        all_goals
          first
          | exact Option.noConfusion h
          | (rename_i hr
             obtain ⟨h1, h2, h3⟩ := by simpa using h
             subst h1
             exact ihA _ _ _ _ _ _ _ hr)
      · split at h
        · obtain ⟨h1, h2, h3⟩ := by simpa using h
          subst h1; exact ⟨HeapExt.refl _, rfl⟩
        · split at h
          · obtain ⟨h1, h2, h3⟩ := by simpa using h
            subst h1; exact ⟨HeapExt.refl _, rfl⟩
          · obtain ⟨h1, h2, h3⟩ := by simpa using h
            subst h1; exact ⟨HeapExt.refl _, rfl⟩
    exact ⟨hA, hArr, hSet, hMap, hME, hObj, hKB, hD⟩

/-- Preservation master for the clone engine: pre-existing cells are never
written (the loops write only the clone cell they are filling), the heap
only grows, and no getter is ever invoked (the call log is untouched). -/
theorem clonePreservation : ∀ fuel : Nat,
    (∀ opts st seen v st1 seen1 w, deepClone fuel opts st seen v = some (st1, seen1, w) →
      HeapExt st.heap st1.heap ∧ st1.calls = st.calls)
    ∧ (∀ opts st seen p elems st1 seen1 w,
        cloneArray fuel opts st seen p elems = some (st1, seen1, w) →
      HeapExt st.heap st1.heap ∧ st1.calls = st.calls)
    ∧ (∀ opts st seen c i elems st1 seen1,
        cloneArrayElems fuel opts st seen c i elems = some (st1, seen1) →
      HeapExtAt c st.heap st1.heap ∧ st1.calls = st.calls)
    ∧ (∀ opts st seen p proto props st1 seen1 w,
        cloneObject fuel opts st seen p proto props = some (st1, seen1, w) →
      HeapExt st.heap st1.heap ∧ st1.calls = st.calls)
    ∧ (∀ opts st seen c props st1 seen1,
        cloneProps fuel opts st seen c props = some (st1, seen1) →
      HeapExtAt c st.heap st1.heap ∧ st1.calls = st.calls
        ∧ RecProtoKeep c st.heap st1.heap)
    ∧ (∀ opts st seen c k d st1 seen1,
        cloneProperty fuel opts st seen c k d = some (st1, seen1) →
      HeapExtAt c st.heap st1.heap ∧ st1.calls = st.calls
        ∧ RecProtoKeep c st.heap st1.heap)
    ∧ (∀ opts st seen p elems st1 seen1 w,
        cloneSet fuel opts st seen p elems = some (st1, seen1, w) →
      HeapExt st.heap st1.heap ∧ st1.calls = st.calls)
    ∧ (∀ opts st seen c elems st1 seen1,
        cloneSetElems fuel opts st seen c elems = some (st1, seen1) →
      HeapExtAt c st.heap st1.heap ∧ st1.calls = st.calls)
    ∧ (∀ opts st seen p entries st1 seen1 w,
        cloneMap fuel opts st seen p entries = some (st1, seen1, w) →
      HeapExt st.heap st1.heap ∧ st1.calls = st.calls)
    ∧ (∀ opts st seen c entries st1 seen1,
        cloneMapEntries fuel opts st seen c entries = some (st1, seen1) →
      HeapExtAt c st.heap st1.heap ∧ st1.calls = st.calls) := by
  intro fuel
  induction fuel with
  | zero =>
    refine ⟨?_, ?_, ?_, ?_, ?_, ?_, ?_, ?_, ?_, ?_⟩ <;>
      intro opts st <;> intros <;> simp_all [deepClone, cloneArray, cloneArrayElems,
        cloneObject, cloneProps, cloneProperty, cloneSet, cloneSetElems, cloneMap,
        cloneMapEntries]
  | succ fuel ih =>
    obtain ⟨ihD, ihA, ihAE, ihO, ihP, ihPr, ihS, ihSE, ihM, ihME⟩ := ih
    have hD : ∀ opts st seen v st1 seen1 w,
        deepClone (fuel + 1) opts st seen v = some (st1, seen1, w) →
        HeapExt st.heap st1.heap ∧ st1.calls = st.calls := by
      intro opts st seen v st1 seen1 w h
      simp only [deepClone] at h
      split at h
      · split at h
        · exact ihA _ _ _ _ _ _ _ _ h
        · exact ihO _ _ _ _ _ _ _ _ _ h
        · exact ihS _ _ _ _ _ _ _ _ h
        · exact ihM _ _ _ _ _ _ _ _ h
        · obtain ⟨h1, h2, h3⟩ := by simpa using h
          subst h1; exact ⟨allocSt_heapExt st _, allocSt_calls st _⟩
        · obtain ⟨h1, h2, h3⟩ := by simpa using h
          subst h1; exact ⟨allocSt_heapExt st _, allocSt_calls st _⟩
        · obtain ⟨h1, h2, h3⟩ := by simpa using h
          subst h1; exact ⟨HeapExt.refl _, rfl⟩
      · obtain ⟨h1, h2, h3⟩ := by simpa using h
        subst h1; exact ⟨HeapExt.refl _, rfl⟩
    have hAE : ∀ opts st seen c i elems st1 seen1,
        cloneArrayElems (fuel + 1) opts st seen c i elems = some (st1, seen1) →
        HeapExtAt c st.heap st1.heap ∧ st1.calls = st.calls := by
      intro opts st seen c i elems st1 seen1 h
      simp only [cloneArrayElems] at h
      split at h
      · obtain ⟨h1, h2⟩ := by simpa using h
        subst h1; exact ⟨HeapExtAt.reflAt _ _, rfl⟩
      · rename_i e rest
        cases hdc : deepClone fuel opts st seen e with
        | none => rw [hdc] at h; exact Option.noConfusion h
        | some r =>
          obtain ⟨stm, seenm, ce⟩ := r
          rw [hdc] at h
          have h2 : cloneArrayElems fuel opts (arrWriteAt stm c i ce) seenm c (i + 1) rest
              = some (st1, seen1) := h
          obtain ⟨hm1, hm2⟩ := ihD _ _ _ _ _ _ _ hdc
          have hrec := ihAE _ _ _ _ _ _ _ _ h2
          constructor
          · exact (hm1.toAt c).transAt ((arrWriteAt_heapExtAt stm c i ce).transAt hrec.1)
          · rw [hrec.2, arrWriteAt_calls, hm2]
    have hA : ∀ opts st seen p elems st1 seen1 w,
        cloneArray (fuel + 1) opts st seen p elems = some (st1, seen1, w) →
        HeapExt st.heap st1.heap ∧ st1.calls = st.calls := by
      intro opts st seen p elems st1 seen1 w h
      simp only [cloneArray] at h
      split at h
      · obtain ⟨h1, h2, h3⟩ := by simpa using h
        subst h1; exact ⟨HeapExt.refl _, rfl⟩
      · split at h
        all_goals
          first
          | exact Option.noConfusion h
          | (rename_i hr
             obtain ⟨h1, h2, h3⟩ := by simpa using h
             subst h1
             have hrec := ihAE _ _ _ _ _ _ _ _ hr
             exact ⟨extAt_out_fresh st.heap.length (Nat.le_refl _)
               (allocSt_heapExt st _) hrec.1, by rw [hrec.2, allocSt_calls]⟩)
    have hPr : ∀ opts st seen c k d st1 seen1,
        cloneProperty (fuel + 1) opts st seen c k d = some (st1, seen1) →
        HeapExtAt c st.heap st1.heap ∧ st1.calls = st.calls
          ∧ RecProtoKeep c st.heap st1.heap := by
      intro opts st seen c k d st1 seen1 h
      simp only [cloneProperty] at h
      split at h
      · cases hdc : deepClone fuel opts st seen (d.value.getD undefV) with
        | none => rw [hdc] at h; exact Option.noConfusion h
        | some r =>
          obtain ⟨stm, seenm, cv⟩ := r
          rw [hdc] at h
          obtain ⟨h1, h2⟩ := by simpa using h
          subst h1
          obtain ⟨hm1, hm2⟩ := ihD _ _ _ _ _ _ _ hdc
          refine ⟨?_, ?_, ?_⟩
          · exact (hm1.toAt c).transAt (definePropertySt_heapExtAt stm c k _)
          · rw [definePropertySt_calls, hm2]
          · exact (hm1.protoKeep c).transKeep (definePropertySt_protoKeep stm c k _)
      · obtain ⟨h1, h2⟩ := by simpa using h
        subst h1
        refine ⟨definePropertySt_heapExtAt st c k _, definePropertySt_calls st c k _,
          definePropertySt_protoKeep st c k _⟩
    have hP : ∀ opts st seen c props st1 seen1,
        cloneProps (fuel + 1) opts st seen c props = some (st1, seen1) →
        HeapExtAt c st.heap st1.heap ∧ st1.calls = st.calls
          ∧ RecProtoKeep c st.heap st1.heap := by
      intro opts st seen c props st1 seen1 h
      simp only [cloneProps] at h
      split at h
      · obtain ⟨h1, h2⟩ := by simpa using h
        subst h1; exact ⟨HeapExtAt.reflAt _ _, rfl, RecProtoKeep.reflKeep _ _⟩
      · rename_i k d rest
        cases hpr : cloneProperty fuel opts st seen c k d with
        | none => rw [hpr] at h; exact Option.noConfusion h
        | some r =>
          obtain ⟨stm, seenm⟩ := r
          rw [hpr] at h
          have h2 : cloneProps fuel opts stm seenm c rest = some (st1, seen1) := h
          obtain ⟨hm1, hm2, hm3⟩ := ihPr _ _ _ _ _ _ _ _ hpr
          have hrec := ihP _ _ _ _ _ _ _ h2
          exact ⟨hm1.transAt hrec.1, by rw [hrec.2.1, hm2], hm3.transKeep hrec.2.2⟩
    have hO : ∀ opts st seen p proto props st1 seen1 w,
        cloneObject (fuel + 1) opts st seen p proto props = some (st1, seen1, w) →
        HeapExt st.heap st1.heap ∧ st1.calls = st.calls := by
      intro opts st seen p proto props st1 seen1 w h
      simp only [cloneObject] at h
      split at h
      · obtain ⟨h1, h2, h3⟩ := by simpa using h
        subst h1; exact ⟨HeapExt.refl _, rfl⟩
      · split at h
        all_goals
          first
          | exact Option.noConfusion h
          | (rename_i hr
             obtain ⟨h1, h2, h3⟩ := by simpa using h
             subst h1
             have hrec := ihP _ _ _ _ _ _ _ hr
             exact ⟨extAt_out_fresh st.heap.length (Nat.le_refl _)
               (allocSt_heapExt st _) hrec.1, by rw [hrec.2.1, allocSt_calls]⟩)
    have hSE : ∀ opts st seen c elems st1 seen1,
        cloneSetElems (fuel + 1) opts st seen c elems = some (st1, seen1) →
        HeapExtAt c st.heap st1.heap ∧ st1.calls = st.calls := by
      intro opts st seen c elems st1 seen1 h
      simp only [cloneSetElems] at h
      split at h
      · obtain ⟨h1, h2⟩ := by simpa using h
        subst h1; exact ⟨HeapExtAt.reflAt _ _, rfl⟩
      · rename_i e rest
        cases hdc : deepClone fuel opts st seen e with
        | none => rw [hdc] at h; exact Option.noConfusion h
        | some r =>
          obtain ⟨stm, seenm, ce⟩ := r
          rw [hdc] at h
          have h2 : cloneSetElems fuel opts (setAddOn stm c ce) seenm c rest
              = some (st1, seen1) := h
          obtain ⟨hm1, hm2⟩ := ihD _ _ _ _ _ _ _ hdc
          have hrec := ihSE _ _ _ _ _ _ _ h2
          constructor
          · exact (hm1.toAt c).transAt ((setAddOn_heapExtAt stm c ce).transAt hrec.1)
          · rw [hrec.2, setAddOn_calls, hm2]
    have hS : ∀ opts st seen p elems st1 seen1 w,
        cloneSet (fuel + 1) opts st seen p elems = some (st1, seen1, w) →
        HeapExt st.heap st1.heap ∧ st1.calls = st.calls := by
      intro opts st seen p elems st1 seen1 w h
      simp only [cloneSet] at h
      split at h
      · obtain ⟨h1, h2, h3⟩ := by simpa using h
        subst h1; exact ⟨HeapExt.refl _, rfl⟩
      · split at h
        all_goals
          first
          | exact Option.noConfusion h
          | (rename_i hr
             obtain ⟨h1, h2, h3⟩ := by simpa using h
             subst h1
             have hrec := ihSE _ _ _ _ _ _ _ hr
             exact ⟨extAt_out_fresh st.heap.length (Nat.le_refl _)
               (allocSt_heapExt st _) hrec.1, by rw [hrec.2, allocSt_calls]⟩)
    have hME2 : ∀ opts st seen c entries st1 seen1,
        cloneMapEntries (fuel + 1) opts st seen c entries = some (st1, seen1) →
        HeapExtAt c st.heap st1.heap ∧ st1.calls = st.calls := by
      intro opts st seen c entries st1 seen1 h
      simp only [cloneMapEntries] at h
      split at h
      · obtain ⟨h1, h2⟩ := by simpa using h
        subst h1; exact ⟨HeapExtAt.reflAt _ _, rfl⟩
      · rename_i kk vv rest
        cases hdk : deepClone fuel opts st seen kk with
        | none => rw [hdk] at h; exact Option.noConfusion h
        | some r =>
          obtain ⟨stk, seenk, ck⟩ := r
          rw [hdk] at h
          have h1 : (match deepClone fuel opts stk seenk vv with
              | none => none
              | some (st2, seen2, cv) =>
                cloneMapEntries fuel opts (mapSetOn st2 c ck cv) seen2 c rest)
              = some (st1, seen1) := h
          cases hdv : deepClone fuel opts stk seenk vv with
          | none => rw [hdv] at h1; exact Option.noConfusion h1
          | some r2 =>
            obtain ⟨stv, seenv, cv⟩ := r2
            rw [hdv] at h1
            have h2 : cloneMapEntries fuel opts (mapSetOn stv c ck cv) seenv c rest
                = some (st1, seen1) := h1
            obtain ⟨hk1, hk2⟩ := ihD _ _ _ _ _ _ _ hdk
            obtain ⟨hv1, hv2⟩ := ihD _ _ _ _ _ _ _ hdv
            have hrec := ihME _ _ _ _ _ _ _ h2
            constructor
            · exact (hk1.toAt c).transAt ((hv1.toAt c).transAt
                ((mapSetOn_heapExtAt stv c ck cv).transAt hrec.1))
            · rw [hrec.2, mapSetOn_calls, hv2, hk2]
    have hM : ∀ opts st seen p entries st1 seen1 w,
        cloneMap (fuel + 1) opts st seen p entries = some (st1, seen1, w) →
        HeapExt st.heap st1.heap ∧ st1.calls = st.calls := by
      intro opts st seen p entries st1 seen1 w h
      simp only [cloneMap] at h
      split at h
      · obtain ⟨h1, h2, h3⟩ := by simpa using h
        subst h1; exact ⟨HeapExt.refl _, rfl⟩
      · split at h
        all_goals
          first
          | exact Option.noConfusion h
          | (rename_i hr
             obtain ⟨h1, h2, h3⟩ := by simpa using h
             subst h1
             have hrec := ihME _ _ _ _ _ _ _ hr
             exact ⟨extAt_out_fresh st.heap.length (Nat.le_refl _)
               (allocSt_heapExt st _) hrec.1, by rw [hrec.2, allocSt_calls]⟩)
    exact ⟨hD, hA, hAE, hO, hP, hPr, hS, hSE, hM, hME2⟩
/-- Calls-preservation master for the assign engine: every function of the
family leaves the getter-call log untouched — all reads are descriptor
reads, never `a[key]`-style gets. -/
theorem assignCallsPreservation : ∀ fuel : Nat,
    (∀ st a b st1 w, assignB2A fuel st a b = some (st1, w) → st1.calls = st.calls)
    ∧ (∀ st p entries st1, assignMapEntries fuel st p entries = some st1 →
        st1.calls = st.calls)
    ∧ (∀ st p q st1 w, assignObject fuel st p q = some (st1, w) →
        st1.calls = st.calls)
    ∧ (∀ st p q keys st1, assignObjectKeys fuel st p q keys = some st1 →
        st1.calls = st.calls)
    ∧ (∀ st p da db k st1, assignPropertyDescriptor fuel st p da db k = some st1 →
        st1.calls = st.calls) := by
  intro fuel
  induction fuel with
  | zero =>
    refine ⟨?_, ?_, ?_, ?_, ?_⟩ <;> intro st <;> intros <;>
      simp_all [assignB2A, assignMapEntries, assignObject, assignObjectKeys,
        assignPropertyDescriptor]
  | succ fuel ih =>
    obtain ⟨ihB, ihME, ihO, ihK, ihPD⟩ := ih
    have hB : ∀ st a b st1 w, assignB2A (fuel + 1) st a b = some (st1, w) →
        st1.calls = st.calls := by
      intro st a b st1 w h
      simp only [assignB2A] at h
      split at h
      · obtain ⟨h1, h2⟩ := by simpa using h
        subst h1; rfl
      · split at h
        · obtain ⟨h1, h2⟩ := by simpa using h
          subst h1; rfl
        · split at h
          · split at h
            · obtain ⟨h1, h2⟩ := by simpa using h
              subst h1; exact writeSt_calls st _ _
            · exact ihO _ _ _ _ _ h
            · obtain ⟨h1, h2⟩ := by simpa using h
              subst h1; exact writeSt_calls st _ _
            · rename_i cur eb _ _
              cases hme : assignMapEntries fuel st _ eb with
              | none => rw [hme] at h; exact Option.noConfusion h
              | some stm =>
                rw [hme] at h
                obtain ⟨h1, h2⟩ := by simpa using h
                subst h1; exact ihME _ _ _ _ hme
            · obtain ⟨h1, h2⟩ := by simpa using h
              subst h1; rfl
          · obtain ⟨h1, h2⟩ := by simpa using h
            subst h1; rfl
    have hME : ∀ st p entries st1, assignMapEntries (fuel + 1) st p entries = some st1 →
        st1.calls = st.calls := by
      intro st p entries st1 h
      simp only [assignMapEntries] at h
      split at h
      · have h1 : st = st1 := by simpa using h
        rw [← h1]
      · rename_i k v rest
        split at h
        · split at h
          · rename_i av _
            cases hab : assignB2A fuel st av v with
            | none => rw [hab] at h; exact Option.noConfusion h
            | some r =>
              obtain ⟨stm, m⟩ := r
              rw [hab] at h
              have h2 : assignMapEntries fuel (mapSetOn stm p k m) p rest
                  = some st1 := h
              have hrec := ihME _ _ _ _ h2
              rw [hrec, mapSetOn_calls, ihB _ _ _ _ _ hab]
          · have hrec := ihME _ _ _ _ h
            rw [hrec, mapSetOn_calls]
        · exact ihME _ _ _ _ h
    have hO : ∀ st p q st1 w, assignObject (fuel + 1) st p q = some (st1, w) →
        st1.calls = st.calls := by
      intro st p q st1 w h
      simp only [assignObject] at h
      cases hk : assignObjectKeys fuel st p q (ownKeys st.heap q) with
      | none => rw [hk] at h; exact Option.noConfusion h
      | some stm =>
        rw [hk] at h
        obtain ⟨h1, h2⟩ := by simpa using h
        subst h1; exact ihK _ _ _ _ _ hk
    have hK : ∀ st p q keys st1, assignObjectKeys (fuel + 1) st p q keys = some st1 →
        st1.calls = st.calls := by
      intro st p q keys st1 h
      cases keys with
      | nil =>
        simp only [assignObjectKeys] at h
        have h1 : st = st1 := by simpa using h
        rw [← h1]
      | cons k rest =>
        simp only [assignObjectKeys] at h
        cases hdb : getOwnPropertyDescriptor st.heap q k with
        | none =>
          rw [hdb] at h
          exact ihK _ _ _ _ _ h
        | some db =>
          rw [hdb] at h
          cases hown : hasOwnProp st.heap p k with
          | false =>
            rw [hown] at h
            replace h : (match assignPropertyDescriptor fuel st p none db k with
                | none => none
                | some st2 => assignObjectKeys fuel st2 p q rest) = some st1 := h
            cases hpd : assignPropertyDescriptor fuel st p none db k with
            | none => rw [hpd] at h; exact Option.noConfusion h
            | some stm =>
              rw [hpd] at h
              have h2 : assignObjectKeys fuel stm p q rest = some st1 := h
              rw [ihK _ _ _ _ _ h2, ihPD _ _ _ _ _ _ hpd]
          | true =>
            rw [hown] at h
            cases hda : getOwnPropertyDescriptor st.heap p k with
            | none =>
              rw [hda] at h
              replace h : (match assignPropertyDescriptor fuel st p none db k with
                  | none => none
                  | some st2 => assignObjectKeys fuel st2 p q rest) = some st1 := h
              cases hpd : assignPropertyDescriptor fuel st p none db k with
              | none => rw [hpd] at h; exact Option.noConfusion h
              | some stm =>
                rw [hpd] at h
                have h2 : assignObjectKeys fuel stm p q rest = some st1 := h
                rw [ihK _ _ _ _ _ h2, ihPD _ _ _ _ _ _ hpd]
            | some da1 =>
              rw [hda] at h
              replace h : (if da1.value.isSome && db.value.isSome
                    && isRecordVal st.heap (jsField da1.value)
                    && isRecordVal st.heap (jsField db.value) then
                  (match jsField da1.value, jsField db.value with
                   | .ref ra, .ref rb =>
                     (match assignObject fuel st ra rb with
                      | none => none
                      | some (st2, _) => assignObjectKeys fuel st2 p q rest)
                   | _, _ => assignObjectKeys fuel st p q rest)
                else
                  if da1.configurable.getD false then
                    match assignPropertyDescriptor fuel st p (some da1) db k with
                    | none => none
                    | some st2 => assignObjectKeys fuel st2 p q rest
                  else if da1.value.isSome && da1.writable.getD false then
                    match assignB2A fuel st (jsField da1.value)
                        (if db.value.isSome then jsField db.value else undefV) with
                    | none => none
                    | some (st2, next) =>
                      assignObjectKeys fuel
                        (definePropertySt st2 p k { da1 with value := some next })
                        p q rest
                  else assignObjectKeys fuel st p q rest) = some st1 := h
              split at h
              · split at h
                all_goals
                  first
                  | exact ihK _ _ _ _ _ h
                  | (rename_i ra rb _ _
                     cases hao : assignObject fuel st ra rb with
                     | none => rw [hao] at h; exact Option.noConfusion h
                     | some r =>
                       obtain ⟨stm, m⟩ := r
                       rw [hao] at h
                       have h2 : assignObjectKeys fuel stm p q rest = some st1 := h
                       rw [ihK _ _ _ _ _ h2, ihO _ _ _ _ _ hao])
              · split at h
                · cases hpd : assignPropertyDescriptor fuel st p (some da1) db k with
                  | none => rw [hpd] at h; exact Option.noConfusion h
                  | some stm =>
                    rw [hpd] at h
                    have h2 : assignObjectKeys fuel stm p q rest = some st1 := h
                    rw [ihK _ _ _ _ _ h2, ihPD _ _ _ _ _ _ hpd]
                · split at h
                  · cases hab : assignB2A fuel st (jsField da1.value)
                        (if db.value.isSome then jsField db.value else undefV) with
                    | none => rw [hab] at h; exact Option.noConfusion h
                    | some r =>
                      obtain ⟨stm, m⟩ := r
                      rw [hab] at h
                      have h2 : assignObjectKeys fuel
                          (definePropertySt stm p k { da1 with value := some m })
                          p q rest = some st1 := h
                      rw [ihK _ _ _ _ _ h2, definePropertySt_calls, ihB _ _ _ _ _ hab]
                  · exact ihK _ _ _ _ _ h
    have hPD : ∀ st p da db k st1,
        assignPropertyDescriptor (fuel + 1) st p da db k = some st1 →
        st1.calls = st.calls := by
      intro st p da db k st1 h
      simp only [assignPropertyDescriptor] at h
      split at h
      · have h1 : definePropertySt st p k db = st1 := by simpa using h
        rw [← h1, definePropertySt_calls]
      · cases hab : assignB2A fuel st _ (jsField db.value) with
        | none => rw [hab] at h; exact Option.noConfusion h
        | some r =>
          obtain ⟨stm, m⟩ := r
          rw [hab] at h
          have h1 : definePropertySt stm p k { db with value := some m } = st1 := by
            simpa using h
          rw [← h1, definePropertySt_calls, ihB _ _ _ _ _ hab]
    exact ⟨hB, hME, hO, hK, hPD⟩

/-! ## C10 — prototype preservation through merge and clone -/

/-- A memo-missing `cloneObject` call allocates its output at the end of the
heap with exactly the prototype it was given
(`Object.create(Object.getPrototypeOf(value))`), and the property loop never
changes that prototype. -/
theorem cloneObject_fresh (fuel : Nat) (opts : CloneOptions) (st : St) (p : Nat)
    (proto : Proto) (props : List (Key × Descriptor)) (st1 : St)
    (seen1 : CloneSeen) (w : Value)
    (h : cloneObject (fuel + 1) opts st [] p proto props = some (st1, seen1, w)) :
    w = .ref st.heap.length
    ∧ ∃ props1, st1.heap[st.heap.length]? = some (.record proto props1) := by
  replace h : (match cloneProps fuel opts
        (⟨st.heap ++ [Obj.record proto []], st.calls⟩ : St)
        [(p, st.heap.length)] st.heap.length props with
      | none => none
      | some (st2, seen2) => some (st2, seen2, Value.ref st.heap.length))
      = some (st1, seen1, w) := h
  cases hcp : cloneProps fuel opts
      (⟨st.heap ++ [Obj.record proto []], st.calls⟩ : St)
      [(p, st.heap.length)] st.heap.length props with
  | none => rw [hcp] at h; exact Option.noConfusion h
  | some r =>
    obtain ⟨st2, seen2⟩ := r
    rw [hcp] at h
    obtain ⟨h1, h2, h3⟩ := by simpa using h
    subst h1
    refine ⟨h3.symm, ?_⟩
    have hcell : (st.heap ++ [Obj.record proto []])[st.heap.length]?
        = some (Obj.record proto []) := List.getElem?_concat_length _ _
    obtain ⟨props1, hl⟩ :=
      ((clonePreservation fuel).2.2.2.2.1 _ _ _ _ _ _ _ hcp).2.2 proto [] hcell
    exact ⟨props1, hl⟩

/-- A non-cycling `mergeObject` call returns a fresh record allocated with
`Object.create(Object.getPrototypeOf(a))` — the prototype of the left
operand — and neither copy loop changes that prototype. -/
theorem mergeObject_fresh (fuel : Nat) (st : St) (p q : Nat) (seen : List Nat)
    (st1 : St) (seen1 : List Nat) (v : Value) (hp : p ∉ seen)
    (h : mergeObject (fuel + 1) st p q seen = some (st1, seen1, v)) :
    v = .ref st.heap.length
    ∧ ∃ props1, st1.heap[st.heap.length]?
        = some (.record (protoOf st.heap p) props1) := by
  simp only [mergeObject] at h
  rw [if_neg hp] at h
  replace h : (match mergeKeysFromB fuel
        (mergeCopyUniqueA
          (⟨st.heap ++ [Obj.record (protoOf st.heap p) []], st.calls⟩ : St)
          st.heap.length p q
          (ownKeys (st.heap ++ [Obj.record (protoOf st.heap p) []]) p))
        st.heap.length p q
        (ownKeys (mergeCopyUniqueA
          (⟨st.heap ++ [Obj.record (protoOf st.heap p) []], st.calls⟩ : St)
          st.heap.length p q
          (ownKeys (st.heap ++ [Obj.record (protoOf st.heap p) []]) p)).heap q)
        (p :: seen) with
      | none => none
      | some (st3, seen2) => some (st3, seen2, Value.ref st.heap.length))
      = some (st1, seen1, v) := h
  cases hkb : mergeKeysFromB fuel
      (mergeCopyUniqueA
        (⟨st.heap ++ [Obj.record (protoOf st.heap p) []], st.calls⟩ : St)
        st.heap.length p q
        (ownKeys (st.heap ++ [Obj.record (protoOf st.heap p) []]) p))
      st.heap.length p q
      (ownKeys (mergeCopyUniqueA
        (⟨st.heap ++ [Obj.record (protoOf st.heap p) []], st.calls⟩ : St)
        st.heap.length p q
        (ownKeys (st.heap ++ [Obj.record (protoOf st.heap p) []]) p)).heap q)
      (p :: seen) with
  | none => rw [hkb] at h; exact Option.noConfusion h
  | some r =>
    obtain ⟨st3, seen2⟩ := r
    rw [hkb] at h
    obtain ⟨h1, h2, h3⟩ := by simpa using h
    subst h1
    refine ⟨h3.symm, ?_⟩
    have hcell : (st.heap ++ [Obj.record (protoOf st.heap p) []])[st.heap.length]?
        = some (Obj.record (protoOf st.heap p) []) := List.getElem?_concat_length _ _
    obtain ⟨props0, h0⟩ := (mergeCopyUniqueA_spec st.heap.length p q
      (ownKeys (st.heap ++ [Obj.record (protoOf st.heap p) []]) p)
      (⟨st.heap ++ [Obj.record (protoOf st.heap p) []], st.calls⟩ : St)).2.2 _ _ hcell
    obtain ⟨props1, hfin⟩ := ((mergePreservation fuel).2.2.2.2.2.2.1
      _ _ _ _ _ _ _ _ hkb).2.2 _ _ h0
    exact ⟨props1, hfin⟩

/-- Two records with `null` prototype: `{a:1}` (with `Object.create(null)`)
at 0 and `{b:2}` at 1. -/
def exProtoSt : St :=
  ⟨[.record .nullp [(kS ("a"), dD (nV 1))],
    .record .nullp [(kS ("b"), dD (nV 2))]], []⟩

/-- C10: when merge combines two distinct records, the returned record's
prototype is the prototype of the left operand (`output =
Object.create(Object.getPrototypeOf(a))`, surviving the finishing clone
pass), so null-prototype inputs produce null-prototype results; and the
clone engine likewise creates every cloned record with `Object.create` of
the original record's prototype. -/
theorem C10_prototype_preservation :
    (∀ fuel st p q proto protoB pa pb st1 v,
      st.heap[p]? = some (.record proto pa) →
      st.heap[q]? = some (.record protoB pb) →
      p ≠ q →
      merge (fuel + 2) st (.ref p) (.ref q) [] = some (st1, v) →
      ∃ r props1, v = .ref r ∧ st1.heap[r]? = some (.record proto props1))
    ∧ (∀ fuel opts st p proto props st1 w,
      st.heap[p]? = some (.record proto props) →
      cloneEntry (fuel + 2) opts st (.ref p) = some (st1, w) →
      ∃ r props1, w = .ref r ∧ st1.heap[r]? = some (.record proto props1)) := by
  constructor
  · intro fuel st p q proto protoB pa pb st1 v hp hq hne hrun
    have hab : mergeAandB (fuel + 2) st (.ref p) (.ref q) []
        = mergeObject (fuel + 1) st p q [] := by
      simp only [mergeAandB]
      rw [if_neg (by simp [undefV]), if_neg (by simp [hne]), hp, hq]
    simp only [merge] at hrun
    rw [hab] at hrun
    cases hmo : mergeObject (fuel + 1) st p q [] with
    | none => rw [hmo] at hrun; exact Option.noConfusion hrun
    | some r =>
      obtain ⟨stm, seenm, vm⟩ := r
      rw [hmo] at hrun
      obtain ⟨hv, props0, hcell⟩ :=
        mergeObject_fresh fuel st p q [] stm seenm vm (by simp) hmo
      subst hv
      have hproto : protoOf st.heap p = proto := by simp [protoOf, hp]
      rw [hproto] at hcell
      have hd : deepClone (fuel + 2) ⟨true, true⟩ stm [] (.ref st.heap.length)
          = cloneObject (fuel + 1) ⟨true, true⟩ stm [] st.heap.length proto props0 := by
        simp only [deepClone]
        rw [hcell]
      simp only [cloneEntry] at hrun
      rw [hd] at hrun
      cases hco : cloneObject (fuel + 1) ⟨true, true⟩ stm [] st.heap.length proto props0 with
      | none => rw [hco] at hrun; exact Option.noConfusion hrun
      | some r2 =>
        obtain ⟨st2, seen2, w2⟩ := r2
        rw [hco] at hrun
        obtain ⟨h1, h2⟩ := by simpa using hrun
        subst h1
        obtain ⟨hw, props1, hfin⟩ := cloneObject_fresh fuel ⟨true, true⟩ stm
          st.heap.length proto props0 st2 seen2 w2 hco
        exact ⟨stm.heap.length, props1, h2.symm.trans hw, hfin⟩
  · intro fuel opts st p proto props st1 w hp hrun
    have hd : deepClone (fuel + 2) opts st [] (.ref p)
        = cloneObject (fuel + 1) opts st [] p proto props := by
      simp only [deepClone]
      rw [hp]
    simp only [cloneEntry] at hrun
    rw [hd] at hrun
    cases hco : cloneObject (fuel + 1) opts st [] p proto props with
    | none => rw [hco] at hrun; exact Option.noConfusion hrun
    | some r2 =>
      obtain ⟨st2, seen2, w2⟩ := r2
      rw [hco] at hrun
      obtain ⟨h1, h2⟩ := by simpa using hrun
      subst h1
      obtain ⟨hw, props1, hfin⟩ := cloneObject_fresh fuel opts st p proto props
        st2 seen2 w2 hco
      exact ⟨st.heap.length, props1, h2.symm.trans hw, hfin⟩

/-- Witness for C10: merging two `Object.create(null)` records yields a
record that still has the `null` prototype (not a plain object). -/
theorem C10_prototype_preservation_witness :
    ∃ st1 v r props1,
      merge 20 exProtoSt (.ref 0) (.ref 1) [] = some (st1, v)
        ∧ v = .ref r ∧ st1.heap[r]? = some (.record .nullp props1) := by
  obtain ⟨st1, v, hrun⟩ : ∃ st1 v,
      merge 20 exProtoSt (.ref 0) (.ref 1) [] = some (st1, v) := ⟨_, _, rfl⟩
  obtain ⟨r, props1, h1, h2⟩ := C10_prototype_preservation.1 18 exProtoSt 0 1
    .nullp .nullp [(kS ("a"), dD (nV 1))] [(kS ("b"), dD (nV 2))] st1 v
    (by rfl) (by rfl) (by decide) hrun
  exact ⟨st1, v, r, props1, hrun, h1, h2⟩

/-! ## C1 — which engines invoke accessors -/

/-- The full `merge` entry (fold plus finishing clone pass) never touches
the getter-call log. -/
theorem merge_calls (fuel : Nat) : ∀ (rest : List Value) (st : St) (a b : Value)
    (st1 : St) (v : Value), merge fuel st a b rest = some (st1, v) →
    st1.calls = st.calls := by
  intro rest
  induction rest with
  | nil =>
    intro st a b st1 v h
    simp only [merge] at h
    cases hab : mergeAandB fuel st a b [] with
    | none => rw [hab] at h; exact Option.noConfusion h
    | some r =>
      obtain ⟨stm, seenm, out⟩ := r
      rw [hab] at h
      simp only [cloneEntry] at h
      cases hd : deepClone fuel ⟨true, true⟩ stm [] out with
      | none => rw [hd] at h; exact Option.noConfusion h
      | some r2 =>
        obtain ⟨st2, seen2, c⟩ := r2
        rw [hd] at h
        obtain ⟨h1, h2⟩ := by simpa using h
        subst h1
        rw [((clonePreservation fuel).1 _ _ _ _ _ _ _ hd).2,
          ((mergePreservation fuel).1 _ _ _ _ _ _ _ hab).2]
  | cons rr rs ih =>
    intro st a b st1 v h
    rw [merge] at h
    cases hab : mergeAandB fuel st a b [] with
    | none => rw [hab] at h; exact Option.noConfusion h
    | some r =>
      obtain ⟨stm, seenm, out⟩ := r
      rw [hab] at h
      have h2 : merge fuel stm out rr rs = some (st1, v) := h
      rw [ih _ _ _ _ _ h2, ((mergePreservation fuel).1 _ _ _ _ _ _ _ hab).2]

/-- The full `assign` entry never touches the getter-call log. -/
theorem assign_calls (fuel : Nat) : ∀ (bs : List Value) (st : St) (a : Value)
    (st1 : St) (v : Value), assign fuel st a bs = some (st1, v) →
    st1.calls = st.calls := by
  intro bs
  induction bs with
  | nil =>
    intro st a st1 v h
    replace h : (some (st, a) : Option (St × Value)) = some (st1, v) := h
    obtain ⟨h1, h2⟩ := by simpa using h
    subst h1
    rfl
  | cons b rest ih =>
    intro st a st1 v h
    replace h : (match assignB2A fuel st a b with
        | none => none
        | some (st2, _) => assign fuel st2 a rest) = some (st1, v) := h
    cases hb : assignB2A fuel st a b with
    | none => rw [hb] at h; exact Option.noConfusion h
    | some r =>
      obtain ⟨stm, m⟩ := r
      rw [hb] at h
      rw [ih _ _ _ _ h, (assignCallsPreservation fuel).1 _ _ _ _ _ hb]

/-- Counterexample to C1: the intersect engine reads `a[key]` and `b[key]`
directly, so on two records carrying accessor properties it invokes both
getters — the call log of the successful run is `[7, 8]`, not empty. -/
theorem C1_counterexample_intersect_getter :
    ∃ st1 v, intersect 20 idFv exGetterSt (.ref 0) (.ref 1) []
        = some (.ok (st1, v))
      ∧ st1.calls = [7, 8] ∧ st1.calls ≠ exGetterSt.calls :=
  ⟨_, _, rfl, rfl, by decide⟩

/-- C1 (amended): merge, assign and clone operate purely on property
descriptors and never invoke a getter or setter stored in any operand — the
getter-call log is returned untouched by every successful run; the intersect
engine, by contrast, reads `a[key]` / `b[key]` and does invoke getters (see
the counterexample). -/
theorem C1_merge_assign_clone_never_call_accessors :
    (∀ fuel st a b rest st1 v, merge fuel st a b rest = some (st1, v) →
      st1.calls = st.calls)
    ∧ (∀ fuel st a bs st1 v, assign fuel st a bs = some (st1, v) →
      st1.calls = st.calls)
    ∧ (∀ fuel opts st v st1 w, cloneEntry fuel opts st v = some (st1, w) →
      st1.calls = st.calls) := by
  refine ⟨fun fuel st a b rest => merge_calls fuel rest st a b,
    fun fuel st a bs => assign_calls fuel bs st a,
    fun fuel opts st v st1 w h => ?_⟩
  simp only [cloneEntry] at h
  cases hd : deepClone fuel opts st [] v with
  | none => rw [hd] at h; exact Option.noConfusion h
  | some r =>
    obtain ⟨st2, seen2, c⟩ := r
    rw [hd] at h
    obtain ⟨h1, h2⟩ := by simpa using h
    subst h1
    exact ((clonePreservation fuel).1 _ _ _ _ _ _ _ hd).2

/-- Witness for the amended C1: merging the two accessor-carrying records
completes with the call log still empty (the accessor pair is combined at
the descriptor level, its getters never run). -/
theorem C1_merge_assign_clone_never_call_accessors_witness :
    ∃ st1 v, merge 20 exGetterSt (.ref 0) (.ref 1) [] = some (st1, v)
      ∧ st1.calls = exGetterSt.calls := by
  obtain ⟨st1, v, hrun⟩ : ∃ st1 v,
      merge 20 exGetterSt (.ref 0) (.ref 1) [] = some (st1, v) := ⟨_, _, rfl⟩
  exact ⟨st1, v, hrun,
    C1_merge_assign_clone_never_call_accessors.1 20 exGetterSt (.ref 0) (.ref 1)
      [] st1 v hrun⟩

/-! ## C7 — the per-key survival rule of record intersect -/

/-- Counterexample to C7: when the two record operands are the identical
reference, the `Object.is` identity rule returns the operand itself before
any per-key processing, so `intersect(r, r)` keeps a key whose value pair
(`undefined`, `undefined`) intersects to `undefined` — per the per-key rule
that key would have been dropped. -/
theorem C7_counterexample_identity_shortcut :
    intersect 20 noFv exUndefKeySt (.ref 0) (.ref 0) []
        = some (.ok (exUndefKeySt, .ref 0))
    ∧ hasOwnProp exUndefKeySt.heap 0 (kS ("k")) = true
    ∧ intersectAandB 20 noFv exUndefKeySt undefV undefV []
        = some (.ok (exUndefKeySt, [], undefV)) :=
  ⟨rfl, rfl, rfl⟩

/-- C7 (amended): for non-identical record operands the key loop follows the
claimed per-key rule — a key of `a` that is not `in b` is skipped; a key
whose two values intersect to `undefined` is dropped; a surviving key is
defined with value and with writable / enumerable / configurable each the
AND of the two own descriptors' flags (absent flags read as false); and the
claimed tag-mismatch example holds: `intersect({foo:[1,2]}, {foo:{bar:1}})`
returns a fresh empty record. -/
theorem C7_intersect_key_policy :
    (∀ fuel fv st out p q k rest seen,
      keyIn st.heap q k = false →
      intersectObjectKeys (fuel + 1) fv st out p q (k :: rest) seen
        = intersectObjectKeys fuel fv st out p q rest seen)
    ∧ (∀ fuel fv st out p q k rest seen stA va stB vb st1 seen1,
      keyIn st.heap q k = true →
      getProp fv st p k = (stA, va) →
      getProp fv stA q k = (stB, vb) →
      intersectAandB fuel fv stB va vb seen = some (.ok (st1, seen1, undefV)) →
      intersectObjectKeys (fuel + 1) fv st out p q (k :: rest) seen
        = intersectObjectKeys fuel fv st1 out p q rest seen1)
    ∧ (∀ fuel fv st out p q k rest seen stA va stB vb st1 seen1 value da db,
      keyIn st.heap q k = true →
      getProp fv st p k = (stA, va) →
      getProp fv stA q k = (stB, vb) →
      intersectAandB fuel fv stB va vb seen = some (.ok (st1, seen1, value)) →
      value ≠ undefV →
      getOwnPropertyDescriptor st1.heap p k = some da →
      getOwnPropertyDescriptor st1.heap q k = some db →
      intersectObjectKeys (fuel + 1) fv st out p q (k :: rest) seen
        = intersectObjectKeys fuel fv
            (definePropertySt st1 out k
              ⟨some value, some (andFlag da.writable db.writable), none, none,
                some (andFlag da.enumerable db.enumerable),
                some (andFlag da.configurable db.configurable)⟩) out p q rest seen1)
    ∧ intersect 20 noFv exMismatchSt (.ref 1) (.ref 3) []
        = some (.ok (⟨exMismatchSt.heap ++ [.record .objectProto []], []⟩, .ref 4)) := by
  refine ⟨?_, ?_, ?_, by rfl⟩
  · intro fuel fv st out p q k rest seen hk
    simp [intersectObjectKeys, hk]
  · intro fuel fv st out p q k rest seen stA va stB vb st1 seen1 hk hA hB hab
    simp [intersectObjectKeys, hk, hA, hB, hab]
  · intro fuel fv st out p q k rest seen stA va stB vb st1 seen1 value da db hk
      hA hB hab hne hda hdb
    simp [intersectObjectKeys, hk, hA, hB, hab, hne, hda, hdb]

/-- Witness for the amended C7: on the two `{k: 42}` records the key `k`
survives and is defined with the AND of the (all-true) flags. -/
theorem C7_intersect_key_policy_witness :
    keyIn exInheritSt.heap 0 (kS ("k")) = true
    ∧ (nV 42) ≠ undefV
    ∧ intersectObjectKeys 20 noFv exInheritSt 5 2 0 [kS ("k")] []
        = intersectObjectKeys 19 noFv
            (definePropertySt exInheritSt 5 (kS ("k"))
              ⟨some (nV 42), some (andFlag (some true) (some true)), none, none,
                some (andFlag (some true) (some true)),
                some (andFlag (some true) (some true))⟩) 5 2 0 [] [] := by
  refine ⟨by rfl, by decide, ?_⟩
  exact C7_intersect_key_policy.2.2.1 19 noFv exInheritSt 5 2 0 (kS ("k")) [] []
    exInheritSt (nV 42) exInheritSt (nV 42) exInheritSt [] (nV 42)
    (dD (nV 42)) (dD (nV 42)) (by rfl) (by rfl) (by rfl) (by rfl) (by decide)
    (by rfl) (by rfl)

/-! ## C2 — freshness of the merge result and the finishing clone pass -/

/-- A value is fresh relative to a heap cut `N`: if it is a reference it
points at or beyond `N`. -/
def ValFresh (N : Nat) (w : Value) : Prop :=
  ∀ r, w = .ref r → N ≤ r

/-- Every clone cell recorded in the memo lies at or beyond the cut `N`. -/
def SeenFresh (N : Nat) (seen : CloneSeen) : Prop :=
  ∀ pc, pc ∈ seen → N ≤ pc.2

theorem SeenFresh.nil (N : Nat) : SeenFresh N [] :=
  fun pc hm => absurd hm (List.not_mem_nil pc)

theorem SeenFresh.cons {N c : Nat} {seen : CloneSeen} (p : Nat) (hc : N ≤ c)
    (hs : SeenFresh N seen) : SeenFresh N ((p, c) :: seen) := by
  intro pc hm
  rcases List.mem_cons.mp hm with h | h
  · rw [h]; exact hc
  · exact hs pc h

/-- A memo hit only ever returns a fresh clone cell. -/
theorem cloneSeenGet_fresh {N : Nat} : ∀ {seen : CloneSeen}, SeenFresh N seen →
    ∀ {p c : Nat}, cloneSeenGet seen p = some c → N ≤ c := by
  intro seen
  induction seen with
  | nil => intro _ p c h; exact Option.noConfusion h
  | cons pc rest ih =>
    intro hs p c h
    obtain ⟨o, c'⟩ := pc
    simp only [cloneSeenGet] at h
    split at h
    · obtain h1 := by simpa using h
      rw [← h1]
      exact hs (o, c') (List.mem_cons_self _ _)
    · exact ih (fun x hx => hs x (List.mem_cons_of_mem _ hx)) h

/-- A dangling reference necessarily points past the end of the heap. -/
theorem getElem_none_len {l : Heap} {p : Nat} (h : l[p]? = none) :
    l.length ≤ p := by
  by_contra hlt
  push_neg at hlt
  rw [List.getElem?_eq_getElem hlt] at h
  exact Option.noConfusion h

/-- Freshness master for the clone engine: starting from a memo whose clone
cells all lie at or beyond the cut `N` (with the heap already at least `N`
cells long), every value the engine returns is fresh relative to `N` — every
cloned container is a newly allocated cell, never an input cell below the
cut. -/
theorem cloneFreshness (N : Nat) : ∀ fuel : Nat,
    (∀ opts st seen v st1 seen1 w, SeenFresh N seen → N ≤ st.heap.length →
      deepClone fuel opts st seen v = some (st1, seen1, w) →
      SeenFresh N seen1 ∧ ValFresh N w)
    ∧ (∀ opts st seen p elems st1 seen1 w, SeenFresh N seen → N ≤ st.heap.length →
      cloneArray fuel opts st seen p elems = some (st1, seen1, w) →
      SeenFresh N seen1 ∧ ValFresh N w)
    ∧ (∀ opts st seen c i elems st1 seen1, SeenFresh N seen → N ≤ st.heap.length →
      cloneArrayElems fuel opts st seen c i elems = some (st1, seen1) →
      SeenFresh N seen1)
    ∧ (∀ opts st seen p proto props st1 seen1 w, SeenFresh N seen → N ≤ st.heap.length →
      cloneObject fuel opts st seen p proto props = some (st1, seen1, w) →
      SeenFresh N seen1 ∧ ValFresh N w)
    ∧ (∀ opts st seen c props st1 seen1, SeenFresh N seen → N ≤ st.heap.length →
      cloneProps fuel opts st seen c props = some (st1, seen1) →
      SeenFresh N seen1)
    ∧ (∀ opts st seen c k d st1 seen1, SeenFresh N seen → N ≤ st.heap.length →
      cloneProperty fuel opts st seen c k d = some (st1, seen1) →
      SeenFresh N seen1)
    ∧ (∀ opts st seen p elems st1 seen1 w, SeenFresh N seen → N ≤ st.heap.length →
      cloneSet fuel opts st seen p elems = some (st1, seen1, w) →
      SeenFresh N seen1 ∧ ValFresh N w)
    ∧ (∀ opts st seen c elems st1 seen1, SeenFresh N seen → N ≤ st.heap.length →
      cloneSetElems fuel opts st seen c elems = some (st1, seen1) →
      SeenFresh N seen1)
    ∧ (∀ opts st seen p entries st1 seen1 w, SeenFresh N seen → N ≤ st.heap.length →
      cloneMap fuel opts st seen p entries = some (st1, seen1, w) →
      SeenFresh N seen1 ∧ ValFresh N w)
    ∧ (∀ opts st seen c entries st1 seen1, SeenFresh N seen → N ≤ st.heap.length →
      cloneMapEntries fuel opts st seen c entries = some (st1, seen1) →
      SeenFresh N seen1) := by
  intro fuel
  induction fuel with
  | zero =>
    refine ⟨?_, ?_, ?_, ?_, ?_, ?_, ?_, ?_, ?_, ?_⟩ <;>
      intro opts st <;> intros <;> simp_all [deepClone, cloneArray, cloneArrayElems,
        cloneObject, cloneProps, cloneProperty, cloneSet, cloneSetElems, cloneMap,
        cloneMapEntries]
  | succ fuel ih =>
    obtain ⟨ihD, ihA, ihAE, ihO, ihP, ihPr, ihS, ihSE, ihM, ihME⟩ := ih
    have hD : ∀ opts st seen v st1 seen1 w, SeenFresh N seen → N ≤ st.heap.length →
        deepClone (fuel + 1) opts st seen v = some (st1, seen1, w) →
        SeenFresh N seen1 ∧ ValFresh N w := by
      intro opts st seen v st1 seen1 w hs hN h
      simp only [deepClone] at h
      split at h
      · split at h
        · exact ihA _ _ _ _ _ _ _ _ hs hN h
        · exact ihO _ _ _ _ _ _ _ _ _ hs hN h
        · exact ihS _ _ _ _ _ _ _ _ hs hN h
        · exact ihM _ _ _ _ _ _ _ _ hs hN h
        · obtain ⟨h1, h2, h3⟩ := by simpa [allocSt] using h
          subst h1
          refine ⟨h2 ▸ hs, ?_⟩
          intro r hr
          rw [← h3] at hr
          injection hr with h4
          omega
        · obtain ⟨h1, h2, h3⟩ := by simpa [allocSt] using h
          subst h1
          refine ⟨h2 ▸ hs, ?_⟩
          intro r hr
          rw [← h3] at hr
          injection hr with h4
          omega
        · rename_i p heq
          obtain ⟨h1, h2, h3⟩ := by simpa using h
          subst h1
          refine ⟨h2 ▸ hs, ?_⟩
          intro r hr
          rw [← h3] at hr
          injection hr with h4
          have h5 := getElem_none_len heq
          omega
      · rename_i hnr
        obtain ⟨h1, h2, h3⟩ := by simpa using h
        subst h1
        refine ⟨h2 ▸ hs, ?_⟩
        intro r hr
        rw [← h3] at hr
        exact absurd hr (hnr r)
    have hAE : ∀ opts st seen c i elems st1 seen1, SeenFresh N seen →
        N ≤ st.heap.length →
        cloneArrayElems (fuel + 1) opts st seen c i elems = some (st1, seen1) →
        SeenFresh N seen1 := by
      intro opts st seen c i elems st1 seen1 hs hN h
      simp only [cloneArrayElems] at h
      split at h
      · obtain ⟨h1, h2⟩ := by simpa using h
        subst h1; exact h2 ▸ hs
      · rename_i e rest
        cases hdc : deepClone fuel opts st seen e with
        | none => rw [hdc] at h; exact Option.noConfusion h
        | some r =>
          obtain ⟨stm, seenm, ce⟩ := r
          rw [hdc] at h
          have h2 : cloneArrayElems fuel opts (arrWriteAt stm c i ce) seenm c (i + 1) rest
              = some (st1, seen1) := h
          obtain ⟨hsm, _⟩ := ihD _ _ _ _ _ _ _ hs hN hdc
          have hNm : N ≤ stm.heap.length :=
            Nat.le_trans hN ((clonePreservation fuel).1 _ _ _ _ _ _ _ hdc).1.1
          have hNw : N ≤ (arrWriteAt stm c i ce).heap.length :=
            Nat.le_trans hNm (arrWriteAt_heapExtAt stm c i ce).1
          exact ihAE _ _ _ _ _ _ _ _ hsm hNw h2
    have hA : ∀ opts st seen p elems st1 seen1 w, SeenFresh N seen →
        N ≤ st.heap.length →
        cloneArray (fuel + 1) opts st seen p elems = some (st1, seen1, w) →
        SeenFresh N seen1 ∧ ValFresh N w := by
      intro opts st seen p elems st1 seen1 w hs hN h
      simp only [cloneArray] at h
      split at h
      · rename_i c heq
        obtain ⟨h1, h2, h3⟩ := by simpa using h
        subst h1
        refine ⟨h2 ▸ hs, ?_⟩
        intro r hr
        rw [← h3] at hr
        injection hr with h4
        have h5 := cloneSeenGet_fresh hs heq
        omega
      · split at h
        all_goals
          first
          | exact Option.noConfusion h
          | (rename_i hr0
             obtain ⟨h1, h2, h3⟩ := by simpa [allocSt] using h
             subst h1
             have hs2 : SeenFresh N ((p, st.heap.length) :: seen) :=
               SeenFresh.cons p hN hs
             have hN2 : N ≤ (st.heap ++ [Obj.arr (List.replicate elems.length undefV)]).length := by
               simp only [List.length_append, List.length_cons, List.length_nil]
               omega
             have hrec := ihAE _ _ _ _ _ _ _ _ hs2 hN2 hr0
             refine ⟨h2 ▸ hrec, ?_⟩
             intro r hrr
             rw [← h3] at hrr
             injection hrr with h4
             omega)
    have hPr : ∀ opts st seen c k d st1 seen1, SeenFresh N seen →
        N ≤ st.heap.length →
        cloneProperty (fuel + 1) opts st seen c k d = some (st1, seen1) →
        SeenFresh N seen1 := by
      intro opts st seen c k d st1 seen1 hs hN h
      simp only [cloneProperty] at h
      split at h
      · cases hdc : deepClone fuel opts st seen (d.value.getD undefV) with
        | none => rw [hdc] at h; exact Option.noConfusion h
        | some r =>
          obtain ⟨stm, seenm, cv⟩ := r
          rw [hdc] at h
          obtain ⟨h1, h2⟩ := by simpa using h
          subst h1
          obtain ⟨hsm, _⟩ := ihD _ _ _ _ _ _ _ hs hN hdc
          exact h2 ▸ hsm
      · obtain ⟨h1, h2⟩ := by simpa using h
        subst h1
        exact h2 ▸ hs
    have hP : ∀ opts st seen c props st1 seen1, SeenFresh N seen →
        N ≤ st.heap.length →
        cloneProps (fuel + 1) opts st seen c props = some (st1, seen1) →
        SeenFresh N seen1 := by
      intro opts st seen c props st1 seen1 hs hN h
      simp only [cloneProps] at h
      split at h
      · obtain ⟨h1, h2⟩ := by simpa using h
        subst h1; exact h2 ▸ hs
      · rename_i k d rest
        cases hpr : cloneProperty fuel opts st seen c k d with
        | none => rw [hpr] at h; exact Option.noConfusion h
        | some r =>
          obtain ⟨stm, seenm⟩ := r
          rw [hpr] at h
          have h2 : cloneProps fuel opts stm seenm c rest = some (st1, seen1) := h
          have hsm := ihPr _ _ _ _ _ _ _ _ hs hN hpr
          have hNm : N ≤ stm.heap.length :=
            Nat.le_trans hN ((clonePreservation fuel).2.2.2.2.2.1 _ _ _ _ _ _ _ _ hpr).1.1
          exact ihP _ _ _ _ _ _ _ hsm hNm h2
    have hO : ∀ opts st seen p proto props st1 seen1 w, SeenFresh N seen →
        N ≤ st.heap.length →
        cloneObject (fuel + 1) opts st seen p proto props = some (st1, seen1, w) →
        SeenFresh N seen1 ∧ ValFresh N w := by
      intro opts st seen p proto props st1 seen1 w hs hN h
      simp only [cloneObject] at h
      split at h
      · rename_i c heq
        obtain ⟨h1, h2, h3⟩ := by simpa using h
        subst h1
        refine ⟨h2 ▸ hs, ?_⟩
        intro r hr
        rw [← h3] at hr
        injection hr with h4
        have h5 := cloneSeenGet_fresh hs heq
        omega
      · split at h
        all_goals
          first
          | exact Option.noConfusion h
          | (rename_i hr0
             obtain ⟨h1, h2, h3⟩ := by simpa [allocSt] using h
             subst h1
             have hs2 : SeenFresh N ((p, st.heap.length) :: seen) :=
               SeenFresh.cons p hN hs
             have hN2 : N ≤ (st.heap ++ [Obj.record proto []]).length := by
               simp only [List.length_append, List.length_cons, List.length_nil]
               omega
             have hrec := ihP _ _ _ _ _ _ _ hs2 hN2 hr0
             refine ⟨h2 ▸ hrec, ?_⟩
             intro r hrr
             rw [← h3] at hrr
             injection hrr with h4
             omega)
    have hSE : ∀ opts st seen c elems st1 seen1, SeenFresh N seen →
        N ≤ st.heap.length →
        cloneSetElems (fuel + 1) opts st seen c elems = some (st1, seen1) →
        SeenFresh N seen1 := by
      intro opts st seen c elems st1 seen1 hs hN h
      simp only [cloneSetElems] at h
      split at h
      · obtain ⟨h1, h2⟩ := by simpa using h
        subst h1; exact h2 ▸ hs
      · rename_i e rest
        cases hdc : deepClone fuel opts st seen e with
        | none => rw [hdc] at h; exact Option.noConfusion h
        | some r =>
          obtain ⟨stm, seenm, ce⟩ := r
          rw [hdc] at h
          have h2 : cloneSetElems fuel opts (setAddOn stm c ce) seenm c rest
              = some (st1, seen1) := h
          obtain ⟨hsm, _⟩ := ihD _ _ _ _ _ _ _ hs hN hdc
          have hNm : N ≤ stm.heap.length :=
            Nat.le_trans hN ((clonePreservation fuel).1 _ _ _ _ _ _ _ hdc).1.1
          have hNw : N ≤ (setAddOn stm c ce).heap.length :=
            Nat.le_trans hNm (setAddOn_heapExtAt stm c ce).1
          exact ihSE _ _ _ _ _ _ _ hsm hNw h2
    have hS : ∀ opts st seen p elems st1 seen1 w, SeenFresh N seen →
        N ≤ st.heap.length →
        cloneSet (fuel + 1) opts st seen p elems = some (st1, seen1, w) →
        SeenFresh N seen1 ∧ ValFresh N w := by
      intro opts st seen p elems st1 seen1 w hs hN h
      simp only [cloneSet] at h
      split at h
      · rename_i c heq
        obtain ⟨h1, h2, h3⟩ := by simpa using h
        subst h1
        refine ⟨h2 ▸ hs, ?_⟩
        intro r hr
        rw [← h3] at hr
        injection hr with h4
        have h5 := cloneSeenGet_fresh hs heq
        omega
      · split at h
        all_goals
          first
          | exact Option.noConfusion h
          | (rename_i hr0
             obtain ⟨h1, h2, h3⟩ := by simpa [allocSt] using h
             subst h1
             have hs2 : SeenFresh N ((p, st.heap.length) :: seen) :=
               SeenFresh.cons p hN hs
             have hN2 : N ≤ (st.heap ++ [Obj.setO []]).length := by
               simp only [List.length_append, List.length_cons, List.length_nil]
               omega
             have hrec := ihSE _ _ _ _ _ _ _ hs2 hN2 hr0
             refine ⟨h2 ▸ hrec, ?_⟩
             intro r hrr
             rw [← h3] at hrr
             injection hrr with h4
             omega)
    have hME2 : ∀ opts st seen c entries st1 seen1, SeenFresh N seen →
        N ≤ st.heap.length →
        cloneMapEntries (fuel + 1) opts st seen c entries = some (st1, seen1) →
        SeenFresh N seen1 := by
      intro opts st seen c entries st1 seen1 hs hN h
      simp only [cloneMapEntries] at h
      split at h
      · obtain ⟨h1, h2⟩ := by simpa using h
        subst h1; exact h2 ▸ hs
      · rename_i kk vv rest
        cases hdk : deepClone fuel opts st seen kk with
        | none => rw [hdk] at h; exact Option.noConfusion h
        | some r =>
          obtain ⟨stk, seenk, ck⟩ := r
          rw [hdk] at h
          have h1 : (match deepClone fuel opts stk seenk vv with
              | none => none
              | some (st2, seen2, cv) =>
                cloneMapEntries fuel opts (mapSetOn st2 c ck cv) seen2 c rest)
              = some (st1, seen1) := h
          cases hdv : deepClone fuel opts stk seenk vv with
          | none => rw [hdv] at h1; exact Option.noConfusion h1
          | some r2 =>
            obtain ⟨stv, seenv, cv⟩ := r2
            rw [hdv] at h1
            have h2 : cloneMapEntries fuel opts (mapSetOn stv c ck cv) seenv c rest
                = some (st1, seen1) := h1
            obtain ⟨hsk, _⟩ := ihD _ _ _ _ _ _ _ hs hN hdk
            have hNk : N ≤ stk.heap.length :=
              Nat.le_trans hN ((clonePreservation fuel).1 _ _ _ _ _ _ _ hdk).1.1
            obtain ⟨hsv, _⟩ := ihD _ _ _ _ _ _ _ hsk hNk hdv
            have hNv : N ≤ stv.heap.length :=
              Nat.le_trans hNk ((clonePreservation fuel).1 _ _ _ _ _ _ _ hdv).1.1
            have hNw : N ≤ (mapSetOn stv c ck cv).heap.length :=
              Nat.le_trans hNv (mapSetOn_heapExtAt stv c ck cv).1
            exact ihME _ _ _ _ _ _ _ hsv hNw h2
    have hM : ∀ opts st seen p entries st1 seen1 w, SeenFresh N seen →
        N ≤ st.heap.length →
        cloneMap (fuel + 1) opts st seen p entries = some (st1, seen1, w) →
        SeenFresh N seen1 ∧ ValFresh N w := by
      intro opts st seen p entries st1 seen1 w hs hN h
      simp only [cloneMap] at h
      split at h
      · rename_i c heq
        obtain ⟨h1, h2, h3⟩ := by simpa using h
        subst h1
        refine ⟨h2 ▸ hs, ?_⟩
        intro r hr
        rw [← h3] at hr
        injection hr with h4
        have h5 := cloneSeenGet_fresh hs heq
        omega
      · split at h
        all_goals
          first
          | exact Option.noConfusion h
          | (rename_i hr0
             obtain ⟨h1, h2, h3⟩ := by simpa [allocSt] using h
             subst h1
             have hs2 : SeenFresh N ((p, st.heap.length) :: seen) :=
               SeenFresh.cons p hN hs
             have hN2 : N ≤ (st.heap ++ [Obj.mapO []]).length := by
               simp only [List.length_append, List.length_cons, List.length_nil]
               omega
             have hrec := ihME _ _ _ _ _ _ _ hs2 hN2 hr0
             refine ⟨h2 ▸ hrec, ?_⟩
             intro r hrr
             rw [← h3] at hrr
             injection hrr with h4
             omega)
    exact ⟨hD, hA, hAE, hO, hP, hPr, hS, hSE, hM, hME2⟩

/-- The address `merge` returns (when its result is a container) lies beyond
every cell of the input heap: the finishing clone pass allocates the whole
output afresh. -/
theorem merge_fresh (fuel : Nat) : ∀ (rest : List Value) (st : St) (a b : Value)
    (st1 : St) (r : Nat), merge fuel st a b rest = some (st1, .ref r) →
    st.heap.length ≤ r := by
  intro rest
  induction rest with
  | nil =>
    intro st a b st1 r h
    simp only [merge] at h
    cases hab : mergeAandB fuel st a b [] with
    | none => rw [hab] at h; exact Option.noConfusion h
    | some res =>
      obtain ⟨stm, seenm, out⟩ := res
      rw [hab] at h
      simp only [cloneEntry] at h
      cases hd : deepClone fuel ⟨true, true⟩ stm [] out with
      | none => rw [hd] at h; exact Option.noConfusion h
      | some r2 =>
        obtain ⟨st2, seen2, c⟩ := r2
        rw [hd] at h
        obtain ⟨h1, h2⟩ := by simpa using h
        obtain ⟨_, hvf⟩ := (cloneFreshness stm.heap.length fuel).1 _ _ _ _ _ _ _
          (SeenFresh.nil _) (Nat.le_refl _) hd
        have h3 := hvf r h2
        have h4 := ((mergePreservation fuel).1 _ _ _ _ _ _ _ hab).1.1
        omega
  | cons rr rs ih =>
    intro st a b st1 r h
    rw [merge] at h
    cases hab : mergeAandB fuel st a b [] with
    | none => rw [hab] at h; exact Option.noConfusion h
    | some res =>
      obtain ⟨stm, seenm, out⟩ := res
      rw [hab] at h
      have h2 : merge fuel stm out rr rs = some (st1, .ref r) := h
      have h3 := ih _ _ _ _ _ h2
      have h4 := ((mergePreservation fuel).1 _ _ _ _ _ _ _ hab).1.1
      omega

/-- A one-key record `{foo: 1}` at address 0. -/
def exSingleSt : St := ⟨[.record .objectProto [(kS ("foo"), dD (nV 1))]], []⟩

/-- Counterexample to C2: merge runs its finishing clone pass with
`preservesImutable: true`, so the returned properties are *not* normalized
to `writable: true, configurable: true` — merging the repository's two
restrictive-descriptor records yields `foo` with `writable: false` and
`configurable: false`. -/
theorem C2_counterexample_restrictive_flags :
    ∃ st1 props, merge 20 exFlagSt (.ref 0) (.ref 1) [] = some (st1, .ref 3)
      ∧ st1.heap[3]? = some (.record .objectProto props)
      ∧ propsLookup props (kS ("foo"))
          = some ⟨some (nV 2), some false, none, none, some true, some false⟩
      ∧ ((some false : Option Bool) ≠ some true) :=
  ⟨_, _, rfl, rfl, rfl, by decide⟩

/-- C2 (amended): every container `merge` returns is freshly allocated — a
returned reference always addresses a cell past the whole input heap, so the
result shares no container identity with any input, and `merge(a, a)` /
`merge(a, undefined)` return a fresh deep-equal copy (shown on the one-key
record).  The finishing clone pass, however, runs with `preservesImutable:
true`: a cloned data property keeps its source `writable` / `configurable`
flags (and keeps `enumerable` under the default `preservesEnumerable:
true`) rather than being normalized to a fully mutable descriptor. -/
theorem C2_merge_freshness_and_flag_policy :
    (∀ fuel st a b rest st1 r,
      merge fuel st a b rest = some (st1, .ref r) → st.heap.length ≤ r)
    ∧ (∀ fuel st seen c k d, d.value.isSome = true →
      cloneProperty (fuel + 1) ⟨true, true⟩ st seen c k d
        = match deepClone fuel ⟨true, true⟩ st seen (d.value.getD undefV) with
          | none => none
          | some (st1, seen1, cv) =>
            some (definePropertySt st1 c k
              ⟨some cv, some (d.writable.getD false), none, none,
                some (d.enumerable.getD false), some (d.configurable.getD false)⟩,
              seen1))
    ∧ merge 20 exSingleSt (.ref 0) (.ref 0) []
        = some (⟨[.record .objectProto [(kS ("foo"), dD (nV 1))],
                  .record .objectProto [(kS ("foo"), dD (nV 1))]], []⟩, .ref 1)
    ∧ merge 20 exSingleSt (.ref 0) undefV []
        = some (⟨[.record .objectProto [(kS ("foo"), dD (nV 1))],
                  .record .objectProto [(kS ("foo"), dD (nV 1))]], []⟩, .ref 1) := by
  refine ⟨fun fuel st a b rest => merge_fresh fuel rest st a b, ?_, by rfl, by rfl⟩
  intro fuel st seen c k d hd
  simp [cloneProperty, hd]

/-- Witness for the amended C2: `merge(a, a)` on the one-key record returns
the reference 1, which lies past the one-cell input heap. -/
theorem C2_merge_freshness_and_flag_policy_witness :
    ∃ st1, merge 20 exSingleSt (.ref 0) (.ref 0) [] = some (st1, .ref 1)
      ∧ exSingleSt.heap.length ≤ 1 := by
  refine ⟨_, rfl, ?_⟩
  exact C2_merge_freshness_and_flag_policy.1 20 exSingleSt (.ref 0) (.ref 0) [] _ 1 rfl
